import Mathlib

/-!
Verification of the RI pilot project's span matching, chunking and
deduplication code (`keyword_search.py`, `semantic_search.py`,
`deduplication.py`, `activity_classifier.py`).

Modelling conventions:
* Python `str` values derived from documents are `List Char` (`Str` below);
  character offsets are `ℕ` (Python offsets here are always non-negative).
* Python `float` scores and thresholds are `ℚ` (the code only compares,
  divides positive values, and takes maxima, so exact rationals model the
  float arithmetic used on the executed paths).
* Python `list.sort` / `sorted` are stable; they are modelled by a stable
  insertion sort (`pySortAscBy` / `pySortDescBy`), which computes the same
  permutation as any stable sort.
* `list(set(xs))` is modelled by first-occurrence deduplication
  (`pyListSet`).  CPython's iteration order over a `set` is
  implementation-defined; no theorem below depends on that order.
* Fallible code paths (the `ZeroDivisionError` raised by
  `CrossStoreDeduplicator.deduplicate` when its result is empty) are
  modelled with `Option`.
-/

namespace RIPilot

set_option maxRecDepth 10000

/-- Python strings derived from document text. -/
abbrev Str := List Char

/-- Characters removed by Python's `str.strip()` (ASCII whitespace). -/
def isWs (c : Char) : Bool :=
  c == ' ' || c == '\n' || c == '\t' || c == '\r' || c == '\x0b' || c == '\x0c'

/-- Python `s.lstrip()`. -/
def pyLstrip (l : Str) : Str := l.dropWhile isWs

/-- Python `s.rstrip()`. -/
def pyRstrip (l : Str) : Str := (l.reverse.dropWhile isWs).reverse

/-- Python `s.strip()`. -/
def pyStrip (l : Str) : Str := pyRstrip (pyLstrip l)

/-- Python slicing `l[s:e]` for `0 ≤ s`, `0 ≤ e`. -/
def pySlice (l : Str) (s e : ℕ) : Str := (l.drop s).take (e - s)

/-- Python `list(set(xs))`, modelled as first-occurrence deduplication. -/
def pyListSet {α : Type} [DecidableEq α] (xs : List α) : List α := xs.eraseDups

/-- Stable insertion (ascending by `key`) used to model Python's stable
`list.sort(key=...)`: an element is placed before the first strictly
greater element, hence after all earlier elements with an equal key. -/
def pyInsertAsc {α : Type} (key : α → ℕ) (x : α) : List α → List α
  | [] => [x]
  | h :: t => if key x ≤ key h then x :: h :: t else h :: pyInsertAsc key x t

/-- Python `xs.sort(key=...)`: stable ascending sort. -/
def pySortAscBy {α : Type} (key : α → ℕ) : List α → List α
  | [] => []
  | x :: xs => pyInsertAsc key x (pySortAscBy key xs)

/-- Stable insertion (descending by `key`), modelling
`list.sort(key=..., reverse=True)`. -/
def pyInsertDesc {α : Type} (key : α → ℕ) (x : α) : List α → List α
  | [] => [x]
  | h :: t => if key h ≤ key x then x :: h :: t else h :: pyInsertDesc key x t

/-- Python `xs.sort(key=..., reverse=True)`: stable descending sort. -/
def pySortDescBy {α : Type} (key : α → ℕ) : List α → List α
  | [] => []
  | x :: xs => pyInsertDesc key x (pySortDescBy key xs)

/-- Python's f-string `f"{n:04d}"`. -/
def pad4 (n : ℕ) : Str :=
  let d := Nat.toDigits 10 n
  List.replicate (4 - d.length) '0' ++ d

/-! ### Data models (`models.py`) -/

/-- `models.KeywordMatch`. -/
structure KeywordMatch where
  chunk_id : Str
  text : Str
  matched_keywords : List Str
  char_start : ℕ
  char_end : ℕ
  source : Str := "keyword_search".toList
  section_name : Str := []
  page_number : ℕ := 0
deriving DecidableEq

/-- `models.SemanticMatch`. -/
structure SemanticMatch where
  chunk_id : Str
  text : Str
  similarity_score : ℚ
  matched_query : Str
  sector : Str
  char_start : ℕ
  char_end : ℕ
  source : Str := "semantic_search".toList
deriving DecidableEq

/-- `models.CombinedMatch`. -/
structure CombinedMatch where
  chunk_id : Str
  text : Str
  char_start : ℕ
  char_end : ℕ
  sources : List Str
  matched_keywords : List Str := []
  similarity_score : ℚ := 0
  matched_query : Str := []
  sector : Str := []
  found_by : Str := []
deriving DecidableEq

/-! ### Cross-store deduplication (`deduplication.py`) -/

/-- `CrossStoreDeduplicator` holds only the configured threshold. -/
structure CrossStoreDeduplicator where
  overlap_threshold : ℚ
deriving DecidableEq

/-- `CrossStoreDeduplicator.__init__` (lines 15–20): the threshold is stored
as given; the source performs no validation, clamping, or error raising. -/
def mkDeduplicator (overlap_threshold : ℚ) : CrossStoreDeduplicator :=
  { overlap_threshold := overlap_threshold }

/-- `CrossStoreDeduplicator._calculate_overlap` (lines 22–35): overlap of
`[start1, end1)` and `[start2, end2)` as a fraction of the first span. -/
def calcOverlap (start1 end1 start2 end2 : ℕ) : ℚ :=
  let overlap_start := max start1 start2
  let overlap_end := min end1 end2
  if overlap_end ≤ overlap_start then 0
  else
    let overlap_length : ℚ := (overlap_end : ℚ) - (overlap_start : ℚ)
    let span1_length : ℚ := (end1 : ℚ) - (start1 : ℚ)
    if 0 < span1_length then overlap_length / span1_length else 0

/-- `deduplicate` lines 86–98: merge a semantic match into an existing
combined match (sources appended, score/query/sector overwritten,
`found_by = "both"`, range widened to the union, longer text kept). -/
def mergeSemInto (c : CombinedMatch) (m : SemanticMatch) : CombinedMatch :=
  let c' : CombinedMatch :=
    { c with
      sources := c.sources ++ ["semantic_search".toList]
      similarity_score := m.similarity_score
      matched_query := m.matched_query
      sector := m.sector
      found_by := "both".toList
      char_start := min c.char_start m.char_start
      char_end := max c.char_end m.char_end }
  if c.text.length < m.text.length then { c' with text := m.text } else c'

/-- `deduplicate` lines 77–102 (the inner `for combined in combined_matches`
loop): the first combined match that carries the `keyword_search` source and
overlaps the semantic match by at least the threshold absorbs it; `none`
when no combined match does. -/
def absorbSem (θ : ℚ) (m : SemanticMatch) :
    List CombinedMatch → Option (List CombinedMatch)
  | [] => none
  | c :: cs =>
      if "keyword_search".toList ∈ c.sources ∧
          θ ≤ calcOverlap m.char_start m.char_end c.char_start c.char_end then
        some (mergeSemInto c m :: cs)
      else
        (absorbSem θ m cs).map (fun cs' => c :: cs')

/-- `deduplicate` lines 104–118: the semantic-only combined match appended
when no overlap was found. -/
def semOnlyMatch (k : ℕ) (m : SemanticMatch) : CombinedMatch :=
  { chunk_id := "combined_".toList ++ pad4 k
    text := m.text
    char_start := m.char_start
    char_end := m.char_end
    sources := ["semantic_search".toList]
    similarity_score := m.similarity_score
    matched_query := m.matched_query
    sector := m.sector
    found_by := "semantic_only".toList }

/-- `deduplicate` lines 73–118: processing of one semantic match against the
current list of combined matches. -/
def processSem (θ : ℚ) (L : List CombinedMatch) (m : SemanticMatch) :
    List CombinedMatch :=
  match absorbSem θ m L with
  | some L' => L'
  | none => L ++ [semOnlyMatch L.length m]

/-- `deduplicate` lines 56–67: a keyword match converted to a combined
match.  (In the reference-tracking model below the `matched_keywords` list
is aliased, not copied; values coincide.) -/
def kwToCombined (k : KeywordMatch) : CombinedMatch :=
  { chunk_id := k.chunk_id
    text := k.text
    char_start := k.char_start
    char_end := k.char_end
    sources := ["keyword_search".toList]
    matched_keywords := k.matched_keywords
    found_by := "keyword_only".toList }

/-- `_final_dedup_pass` lines 160–186: merge `current` into `last`
(union of sources, keywords extended then set-deduplicated, higher score
kept together with its query/sector, `found_by` updated, range widened,
longer text kept). -/
def finalMergeInto (last cur : CombinedMatch) : CombinedMatch :=
  let srcs := cur.sources.foldl
    (fun acc s => if s ∈ acc then acc else acc ++ [s]) last.sources
  let mk := pyListSet (last.matched_keywords ++ cur.matched_keywords)
  let l1 : CombinedMatch := { last with sources := srcs, matched_keywords := mk }
  let l2 : CombinedMatch :=
    if l1.similarity_score < cur.similarity_score then
      { l1 with
        similarity_score := cur.similarity_score
        matched_query := cur.matched_query
        sector := cur.sector }
    else l1
  let l3 : CombinedMatch :=
    if 1 < l2.sources.length then { l2 with found_by := "both".toList } else l2
  let l4 : CombinedMatch :=
    { l3 with
      char_start := min l3.char_start cur.char_start
      char_end := max l3.char_end cur.char_end }
  if l4.text.length < cur.text.length then { l4 with text := cur.text } else l4

/-- `_final_dedup_pass` lines 151–189, with `last` the currently mutable
tail element (`deduplicated[-1]`) carried explicitly. -/
def finalDedupGo (θ : ℚ) (last : CombinedMatch) :
    List CombinedMatch → List CombinedMatch
  | [] => [last]
  | cur :: rest =>
      if θ ≤ calcOverlap cur.char_start cur.char_end last.char_start last.char_end then
        finalDedupGo θ (finalMergeInto last cur) rest
      else
        last :: finalDedupGo θ cur rest

/-- `CrossStoreDeduplicator._final_dedup_pass` (lines 144–191). -/
def finalDedupPass (θ : ℚ) : List CombinedMatch → List CombinedMatch
  | [] => []
  | m :: ms => finalDedupGo θ m ms

/-- `CrossStoreDeduplicator.deduplicate` (lines 37–142).  Returns `none`
when `final_matches` is empty: line 140 then divides by
`len(final_matches) = 0` and the Python code raises `ZeroDivisionError`
instead of returning. -/
def deduplicate (θ : ℚ) (kws : List KeywordMatch) (sems : List SemanticMatch) :
    Option (List CombinedMatch) :=
  let combined := kws.map kwToCombined
  let afterSems := sems.foldl (processSem θ) combined
  let sorted := pySortAscBy (fun c => c.char_start) afterSems
  let finalMs := finalDedupPass θ sorted
  if finalMs.isEmpty then none else some finalMs

/-! ### Coverage of character ranges (for the reconciliation-cover claim) -/

/-- Position `x` lies in the `[char_start, char_end)` range of some match. -/
def coversAt (l : List CombinedMatch) (x : ℕ) : Prop :=
  ∃ m ∈ l, m.char_start ≤ x ∧ x < m.char_end

instance (l : List CombinedMatch) (x : ℕ) : Decidable (coversAt l x) := by
  unfold coversAt; infer_instance

/-- Position `x` lies in the range of some keyword match. -/
def kwCoversAt (l : List KeywordMatch) (x : ℕ) : Prop :=
  ∃ m ∈ l, m.char_start ≤ x ∧ x < m.char_end

instance (l : List KeywordMatch) (x : ℕ) : Decidable (kwCoversAt l x) := by
  unfold kwCoversAt; infer_instance

/-- Position `x` lies in the range of some semantic match. -/
def semCoversAt (l : List SemanticMatch) (x : ℕ) : Prop :=
  ∃ m ∈ l, m.char_start ≤ x ∧ x < m.char_end

instance (l : List SemanticMatch) (x : ℕ) : Decidable (semCoversAt l x) := by
  unfold semCoversAt; infer_instance

/-! ### First-hit absorption of semantic matches (claim C3) -/

/-- The merge test applied by `deduplicate` lines 77–84: the combined match
carries the `keyword_search` source and the overlap fraction — computed over
the semantic span's own length — reaches the threshold. -/
def semHit (θ : ℚ) (m : SemanticMatch) (c : CombinedMatch) : Prop :=
  "keyword_search".toList ∈ c.sources ∧
    θ ≤ calcOverlap m.char_start m.char_end c.char_start c.char_end

instance (θ : ℚ) (m : SemanticMatch) (c : CombinedMatch) :
    Decidable (semHit θ m c) := by
  unfold semHit; infer_instance

/-! ### Reference-tracking model of `deduplicate` (claim C9)

Python lists are mutable objects passed by reference.  `deduplicate`
line 64 stores `kw_match.matched_keywords` itself — not a copy — in the new
`CombinedMatch`, and `_final_dedup_pass` line 167 calls
`last.matched_keywords.extend(...)`, mutating that shared list in place.
To observe this, matched-keyword lists live in an explicit store of list
objects; matches hold an index (`kwPtr`) into the store and the functions
thread the store.  All other fields are immutable values in the source
(`str`, `int`, `float`) or freshly built lists, and are modelled directly. -/

/-- The store of matched-keyword list objects. -/
abbrev KwStore := List (List Str)

/-- Dereference a list object (unused indices read as `[]`). -/
def storeRead (st : KwStore) (p : ℕ) : List Str := st.getD p []

/-- `models.KeywordMatch` with its `matched_keywords` list held by
reference. -/
structure KeywordMatchRef where
  chunk_id : Str
  text : Str
  kwPtr : ℕ
  char_start : ℕ
  char_end : ℕ
deriving DecidableEq

/-- `models.CombinedMatch` with its `matched_keywords` list held by
reference. -/
structure CombinedMatchRef where
  chunk_id : Str
  text : Str
  char_start : ℕ
  char_end : ℕ
  sources : List Str
  kwPtr : ℕ
  similarity_score : ℚ := 0
  matched_query : Str := []
  sector : Str := []
  found_by : Str := []
deriving DecidableEq

/-- `deduplicate` lines 86–98 in the reference model (the keyword list is
untouched there). -/
def mergeSemIntoRef (c : CombinedMatchRef) (m : SemanticMatch) :
    CombinedMatchRef :=
  let c' : CombinedMatchRef :=
    { c with
      sources := c.sources ++ ["semantic_search".toList]
      similarity_score := m.similarity_score
      matched_query := m.matched_query
      sector := m.sector
      found_by := "both".toList
      char_start := min c.char_start m.char_start
      char_end := max c.char_end m.char_end }
  if c.text.length < m.text.length then { c' with text := m.text } else c'

/-- `deduplicate` lines 77–102 in the reference model. -/
def absorbSemRef (θ : ℚ) (m : SemanticMatch) :
    List CombinedMatchRef → Option (List CombinedMatchRef)
  | [] => none
  | c :: cs =>
      if "keyword_search".toList ∈ c.sources ∧
          θ ≤ calcOverlap m.char_start m.char_end c.char_start c.char_end then
        some (mergeSemIntoRef c m :: cs)
      else
        (absorbSemRef θ m cs).map (fun cs' => c :: cs')

/-- `deduplicate` lines 73–118 in the reference model; a semantic-only
`CombinedMatch` gets a freshly allocated empty keyword list (the dataclass
`default_factory=list`). -/
def processSemRef (θ : ℚ) (acc : List CombinedMatchRef × KwStore)
    (m : SemanticMatch) : List CombinedMatchRef × KwStore :=
  match absorbSemRef θ m acc.1 with
  | some L' => (L', acc.2)
  | none =>
      (acc.1 ++
        [{ chunk_id := "combined_".toList ++ pad4 acc.1.length
           text := m.text
           char_start := m.char_start
           char_end := m.char_end
           sources := ["semantic_search".toList]
           kwPtr := acc.2.length
           similarity_score := m.similarity_score
           matched_query := m.matched_query
           sector := m.sector
           found_by := "semantic_only".toList }],
        acc.2 ++ [[]])

/-- `deduplicate` lines 56–67 in the reference model: line 64 copies the
list reference (`matched_keywords=kw_match.matched_keywords`), aliasing the
input's list. -/
def kwToCombinedRef (k : KeywordMatchRef) : CombinedMatchRef :=
  { chunk_id := k.chunk_id
    text := k.text
    char_start := k.char_start
    char_end := k.char_end
    sources := ["keyword_search".toList]
    kwPtr := k.kwPtr
    found_by := "keyword_only".toList }

/-- `_final_dedup_pass` lines 160–186 in the reference model: line 167's
`extend` mutates the list object shared with the input match in place;
line 168 then rebinds `last.matched_keywords` to a freshly allocated
deduplicated list, leaving the old (now extended) object behind. -/
def finalMergeIntoRef (st : KwStore) (last cur : CombinedMatchRef) :
    CombinedMatchRef × KwStore :=
  let srcs := cur.sources.foldl
    (fun acc s => if s ∈ acc then acc else acc ++ [s]) last.sources
  let extended := storeRead st last.kwPtr ++ storeRead st cur.kwPtr
  let st1 := st.set last.kwPtr extended
  let st2 := st1 ++ [pyListSet extended]
  let l1 : CombinedMatchRef := { last with sources := srcs, kwPtr := st1.length }
  let l2 : CombinedMatchRef :=
    if l1.similarity_score < cur.similarity_score then
      { l1 with
        similarity_score := cur.similarity_score
        matched_query := cur.matched_query
        sector := cur.sector }
    else l1
  let l3 : CombinedMatchRef :=
    if 1 < l2.sources.length then { l2 with found_by := "both".toList } else l2
  let l4 : CombinedMatchRef :=
    { l3 with
      char_start := min l3.char_start cur.char_start
      char_end := max l3.char_end cur.char_end }
  (if l4.text.length < cur.text.length then { l4 with text := cur.text } else l4,
    st2)

/-- `_final_dedup_pass` lines 151–189 in the reference model. -/
def finalDedupGoRef (θ : ℚ) (st : KwStore) (last : CombinedMatchRef) :
    List CombinedMatchRef → List CombinedMatchRef × KwStore
  | [] => ([last], st)
  | cur :: rest =>
      if θ ≤ calcOverlap cur.char_start cur.char_end last.char_start last.char_end then
        let m := finalMergeIntoRef st last cur
        finalDedupGoRef θ m.2 m.1 rest
      else
        let r := finalDedupGoRef θ st cur rest
        (last :: r.1, r.2)

/-- `CrossStoreDeduplicator._final_dedup_pass` in the reference model. -/
def finalDedupPassRef (θ : ℚ) (st : KwStore) :
    List CombinedMatchRef → List CombinedMatchRef × KwStore
  | [] => ([], st)
  | m :: ms => finalDedupGoRef θ st m ms

/-- `CrossStoreDeduplicator.deduplicate` in the reference model; the final
store records the state of every matched-keywords list object after the
call (`none` again models the `ZeroDivisionError` on an empty result — the
store mutations performed up to that point survive, as side effects on the
caller's objects do in Python). -/
def deduplicateRef (θ : ℚ) (kws : List KeywordMatchRef)
    (sems : List SemanticMatch) (st : KwStore) :
    Option (List CombinedMatchRef) × KwStore :=
  let combined := kws.map kwToCombinedRef
  let afterSems := sems.foldl (processSemRef θ) (combined, st)
  let sorted := pySortAscBy (fun c => c.char_start) afterSems.1
  let finalRes := finalDedupPassRef θ afterSems.2 sorted
  (if finalRes.1.isEmpty then none else some finalRes.1, finalRes.2)

/-- Pointwise prefix order on stores: every list object's prior contents
survive at the front. -/
def storePref (st st' : KwStore) : Prop :=
  ∀ p : ℕ, storeRead st p <+: storeRead st' p

/-! ### Keyword search (`keyword_search.py`)

External NLTK components (`word_tokenize`, `sent_tokenize`,
`WordNetLemmatizer`, and `re.finditer` for multi-word patterns) are not
part of this repository; they enter the embedding as function parameters
(`wordTok`, `sentTok`, `lemmWord`, `regexFind`).  Theorems about degenerate
inputs state the (actually true) facts they rely on about these parameters
as hypotheses. -/

/-- Python `s.lower()`. -/
def pyLower (l : Str) : Str := l.map Char.toLower

/-- Worker for `pySplitWs` carrying the current (reversed) word. -/
def splitWsGo : Str → Str → List Str
  | acc, [] => if acc.isEmpty then [] else [acc.reverse]
  | acc, c :: rest =>
      if isWs c then
        if acc.isEmpty then splitWsGo [] rest
        else acc.reverse :: splitWsGo [] rest
      else splitWsGo (c :: acc) rest

/-- Python `s.split()` with no argument: split on whitespace runs, dropping
empty pieces. -/
def pySplitWs (l : Str) : List Str := splitWsGo [] l

/-- Python `text.split("\n\n")`: greedy left-to-right scan; a leading
`"\n\n"` closes the current (possibly empty) piece, any other character is
prepended to the first piece of the split of the remainder. -/
def splitOnNN : Str → List Str
  | [] => [[]]
  | [c] => [[c]]
  | c1 :: c2 :: rest =>
      if c1 = '\n' ∧ c2 = '\n' then [] :: splitOnNN rest
      else
        match splitOnNN (c2 :: rest) with
        | [] => [[c1]]
        | p :: ps => (c1 :: p) :: ps

/-- Python `"\n\n".join(ps)`, the inverse of `splitOnNN`. -/
def joinNN : List Str → Str
  | [] => []
  | [p] => p
  | p :: q :: ps => p ++ '\n' :: '\n' :: joinNN (q :: ps)

/-- Python `" ".join(ps)`. -/
def joinSpace : List Str → Str
  | [] => []
  | [p] => p
  | p :: q :: ps => p ++ ' ' :: joinSpace (q :: ps)

/-- Python `hay.find(needle, start)`; `none` models `-1`. -/
def pyFind (hay needle : Str) (start : ℕ) : Option ℕ :=
  (List.range (hay.length + 1)).find? fun i =>
    decide (start ≤ i) && needle.isPrefixOf (hay.drop i)

/-- Python `d.setdefault(key, []).append(v)` on an insertion-ordered dict,
modelled as an association list. -/
def dictAppend {κ : Type} [DecidableEq κ] : List (κ × List Str) → κ →
    Str → List (κ × List Str)
  | [], key, v => [(key, [v])]
  | (k, vs) :: rest, key, v =>
      if k = key then (k, vs ++ [v]) :: rest
      else (k, vs) :: dictAppend rest key v

/-- `KeywordSearcher._create_keyword_patterns` (lines 35–57), parameterised
by `_lemmatize_word` (the WordNet lemmatiser).  A pattern key is kept as
the list of lemmatised words rather than their space-joined string; the two
are in bijection because the lemmas of split words contain no whitespace. -/
def createKeywordPatterns (lemmWord : Str → Str) (keywords : List Str) :
    List (List Str × List Str) :=
  keywords.foldl
    (fun pats kw =>
      let words := pySplitWs (pyLower kw)
      match words with
      | [w] => dictAppend pats [lemmWord w] kw
      | ws => dictAppend pats (ws.map lemmWord) kw)
    []

/-- `KeywordSearcher` state: the keyword table and its lemmatised
patterns. -/
structure KeywordSearcher where
  keywords : List Str
  lemmatized_keywords : List (List Str × List Str)

/-- `KeywordSearcher.__init__`. -/
def mkKeywordSearcher (lemmWord : Str → Str) (keywords : List Str) :
    KeywordSearcher :=
  { keywords := keywords
    lemmatized_keywords := createKeywordPatterns lemmWord keywords }

/-- Line 80: `sum(len(w) + 1 for w in words[:i])`. -/
def offsetSum (words : List Str) (i : ℕ) : ℕ :=
  ((words.take i).map (fun w => w.length + 1)).sum

/-- `KeywordSearcher._find_keyword_positions` (lines 59–93).  `wordTok`
models `word_tokenize`, `lemmWord` models `_lemmatize_word`, and
`regexFind` models `re.finditer` over the `\b`-joined multi-word pattern
(returning the match spans in `text_lower`).
One iteration of its `for pattern, original_keywords in
self.lemmatized_keywords.items()` loop. -/
def findKwStep (wordTok : Str → List Str) (lemmWord : Str → Str)
    (regexFind : List Str → Str → List (ℕ × ℕ)) (text_lower : Str)
    (found : List (ℕ × ℕ × Str)) (pat : List Str × List Str) :
    List (ℕ × ℕ × Str) :=
  let representative_keyword := pat.2.headD []
  match pat.1 with
  | [pattern] =>
      let words := wordTok text_lower
      words.enum.foldl
        (fun acc iw =>
          if lemmWord iw.2 = pattern then
            match pyFind text_lower iw.2 (offsetSum words iw.1) with
            | some start =>
                acc ++ [(start, start + iw.2.length, representative_keyword)]
            | none => acc
          else acc)
        found
  | pattern_words =>
      found ++ (regexFind pattern_words text_lower).map
        (fun se => (se.1, se.2, representative_keyword))

/-- `KeywordSearcher._find_keyword_positions` (lines 59–93). -/
def findKeywordPositions (wordTok : Str → List Str) (lemmWord : Str → Str)
    (regexFind : List Str → Str → List (ℕ × ℕ))
    (pats : List (List Str × List Str)) (text : Str) : List (ℕ × ℕ × Str) :=
  pats.foldl (findKwStep wordTok lemmWord regexFind (pyLower text)) []

/-- The loop of `_expand_context` (lines 169–174): widen `[s, e)` by up to
100 characters a side per iteration until it reaches 200 characters or
covers the whole document. -/
def expandLoop (n s e : ℕ) : ℕ × ℕ :=
  if h : e - s < 200 ∧ (0 < s ∨ e < n) then
    expandLoop n (if 0 < s then s - 100 else s)
      (if e < n then min n (e + 100) else e)
  else (s, e)
termination_by s + (n - e)
decreasing_by
  rcases h with ⟨h1, h2⟩
  split <;> split <;> omega

/-- `KeywordSearcher._expand_context` (lines 167–176): the expanded text is
the *stripped* slice, returned with the loop's start offset and an end
offset recomputed from the stripped length. -/
def expandContext (text : Str) (s e : ℕ) : Str × ℕ × ℕ :=
  let p := expandLoop text.length s e
  let expanded_text := pyStrip (pySlice text p.1 p.2)
  (expanded_text, p.1, p.1 + expanded_text.length)

/-- Lines 129–137: find the index of the sentence whose running span
contains `match_pos`. -/
def findTargetIdx (mp : ℕ) : List Str → ℕ → ℕ → Option ℕ
  | [], _, _ => none
  | s :: ss, pos, idx =>
      if pos ≤ mp ∧ mp ≤ pos + s.length then some idx
      else findTargetIdx mp ss (pos + s.length + 1) (idx + 1)

/-- `KeywordSearcher._extract_by_sentences` (lines 123–165) with
`before = after = 3`; `sentTok` models `sent_tokenize`.  (In the truncation
branch Python's `match_pos - char_start` may be a negative `int` when the
tokeniser misaligns; the `ℕ` model truncates it at 0, a branch no theorem
below relies on.) -/
def extractBySentences (sentTok : Str → List Str) (text : Str) (mp : ℕ) :
    Str × ℕ × ℕ :=
  let sentences := sentTok text
  match findTargetIdx mp sentences 0 0 with
  | none =>
      let s := mp - 300
      let e := min text.length (mp + 300)
      (pySlice text s e, s, e)
  | some target_idx =>
      let start_idx := target_idx - 3
      let end_idx := min sentences.length (target_idx + 3 + 1)
      let context_sents := (sentences.drop start_idx).take (end_idx - start_idx)
      let context_text := joinSpace context_sents
      let char_start := ((sentences.take start_idx).map (fun s => s.length + 1)).sum
      let char_end := char_start + context_text.length
      if context_text.length < 200 then expandContext text char_start char_end
      else if 1000 < context_text.length then
        let match_offset := mp - char_start
        let truncated := pySlice context_text (match_offset - 500) (match_offset + 500)
        (truncated, char_start, char_start + truncated.length)
      else (context_text, char_start, char_end)

/-- The paragraph loop of `_extract_context` (lines 98–121), carrying
`current_pos`. -/
def extractGo (sentTok : Str → List Str) (text : Str) (ms : ℕ) :
    List Str → ℕ → Str × ℕ × ℕ
  | [], _ => extractBySentences sentTok text ms
  | para :: ps, pos =>
      let para_end := pos + para.length
      if pos ≤ ms ∧ ms ≤ para_end then
        let para_clean := pyStrip para
        if 200 ≤ para_clean.length ∧ para_clean.length ≤ 1000 then
          (para_clean, pos, para_end)
        else if para_clean.length < 200 then
          expandContext text pos para_end
        else
          extractBySentences sentTok text ms
      else extractGo sentTok text ms ps (para_end + 2)

/-- `KeywordSearcher._extract_context` (lines 95–121).  (`match_end` is
accepted and ignored, as in the source.) -/
def extractContext (sentTok : Str → List Str) (text : Str)
    (match_start match_end : ℕ) : Str × ℕ × ℕ :=
  extractGo sentTok text match_start (splitOnNN text) 0

/-- `_merge_overlapping` lines 244–250: overlap exists and its ratio over
the earlier span exceeds `0.5`. -/
def mergeCondAt (s1 e1 s2 e2 : ℕ) : Prop :=
  max s1 s2 < min e1 e2 ∧
    1/2 < (((min e1 e2 : ℕ) : ℚ) - ((max s1 s2 : ℕ) : ℚ)) /
      ((e1 : ℚ) - (s1 : ℚ))

instance (s1 e1 s2 e2 : ℕ) : Decidable (mergeCondAt s1 e1 s2 e2) := by
  unfold mergeCondAt; infer_instance

/-- The merge test between the retained `last` span and the next one. -/
def mergeCond (last cur : KeywordMatch) : Prop :=
  mergeCondAt last.char_start last.char_end cur.char_start cur.char_end

instance (last cur : KeywordMatch) : Decidable (mergeCond last cur) := by
  unfold mergeCond; infer_instance

/-- `_merge_overlapping` lines 252–256: keyword union (set-deduplicated),
extended end, longer text. -/
def mergeTwo (last cur : KeywordMatch) : KeywordMatch :=
  { last with
    matched_keywords := pyListSet (last.matched_keywords ++ cur.matched_keywords)
    char_end := max last.char_end cur.char_end
    text := if last.text.length < cur.text.length then cur.text else last.text }

/-- `_merge_overlapping` lines 240–259, carrying the mutable tail element
(`merged[-1]`). -/
def kwMergeGo : KeywordMatch → List KeywordMatch → List KeywordMatch
  | last, [] => [last]
  | last, cur :: rest =>
      if mergeCond last cur then kwMergeGo (mergeTwo last cur) rest
      else last :: kwMergeGo cur rest

/-- `KeywordSearcher._merge_overlapping` (lines 231–261). -/
def mergeOverlapping (ms : List KeywordMatch) : List KeywordMatch :=
  if ms.isEmpty then []
  else
    match pySortAscBy (fun m => m.char_start) ms with
    | [] => []
    | m :: rest => kwMergeGo m rest

/-- Ghost-instrumented `kwMergeGo` that also records, for each emitted
span, its `char_end` at the moment it was appended to `merged` (merges
into a span only ever extend its end afterwards). -/
def kwMergeGoSnap : KeywordMatch → ℕ → List KeywordMatch → List (KeywordMatch × ℕ)
  | last, snap, [] => [(last, snap)]
  | last, snap, cur :: rest =>
      if mergeCond last cur then kwMergeGoSnap (mergeTwo last cur) snap rest
      else (last, snap) :: kwMergeGoSnap cur cur.char_end rest

/-- Ghost-instrumented `_merge_overlapping`. -/
def mergeOverlappingSnap (ms : List KeywordMatch) : List (KeywordMatch × ℕ) :=
  if ms.isEmpty then []
  else
    match pySortAscBy (fun m => m.char_start) ms with
    | [] => []
    | m :: rest => kwMergeGoSnap m m.char_end rest

/-- `search` lines 198–224: build one `KeywordMatch` per unique position,
skipping starts already seen, extracting context for each. -/
def buildMatches (sentTok : Str → List Str) (text : Str)
    (section_name : Str) (page_number : ℕ) :
    List ((ℕ × ℕ) × List Str) → List ℕ → List KeywordMatch → List KeywordMatch
  | [], _, acc => acc
  | (se, kws) :: rest, seen, acc =>
      if se.1 ∈ seen then
        buildMatches sentTok text section_name page_number rest seen acc
      else
        let unique_keywords := pyListSet kws
        let ctx := extractContext sentTok text se.1 se.2
        let m : KeywordMatch :=
          { chunk_id := "keyword_".toList ++ pad4 acc.length
            text := ctx.1
            matched_keywords := unique_keywords
            char_start := ctx.2.1
            char_end := ctx.2.2
            section_name := section_name
            page_number := page_number }
        buildMatches sentTok text section_name page_number rest (se.1 :: seen)
          (acc ++ [m])

/-- `KeywordSearcher.search` (lines 178–229). -/
def kwSearch (wordTok : Str → List Str) (lemmWord : Str → Str)
    (regexFind : List Str → Str → List (ℕ × ℕ)) (sentTok : Str → List Str)
    (S : KeywordSearcher) (text : Str) (section_name : Str)
    (page_number : ℕ) : List KeywordMatch :=
  let keyword_positions :=
    findKeywordPositions wordTok lemmWord regexFind S.lemmatized_keywords text
  if keyword_positions.isEmpty then []
  else
    let position_keywords := keyword_positions.foldl
      (fun d m => dictAppend d (m.1, m.2.1) m.2.2) []
    let found := buildMatches sentTok text section_name page_number
      position_keywords [] []
    mergeOverlapping found

/-! ### Semantic search (`semantic_search.py`) -/

/-- The paragraph loop of `_create_chunks` (lines 52–78), carrying
`current_chunk`, `chunk_start`, `current_pos`, and the accumulated chunks.
Note the source advances `current_pos` by the length of the *stripped*
paragraph (line 53 rebinds `para`), so offsets drift on documents with
paragraph-edge whitespace, and the final `current_pos` exceeds the document
length by 2. -/
def createChunksGo (chunk_size overlap : ℕ) :
    List Str → Str → ℕ → ℕ → List (Str × ℕ × ℕ) → List (Str × ℕ × ℕ)
  | [], cc, cs, pos, chunks =>
      if cc.isEmpty then chunks else chunks ++ [(pyStrip cc, cs, pos)]
  | para :: ps, cc, cs, pos, chunks =>
      let p := pyStrip para
      if p.isEmpty then createChunksGo chunk_size overlap ps cc cs (pos + 2) chunks
      else if chunk_size < cc.length + p.length ∧ ¬ cc.isEmpty then
        let chunks' := chunks ++ [(pyStrip cc, cs, pos)]
        let overlap_text := if overlap < cc.length then cc.drop (cc.length - overlap) else cc
        createChunksGo chunk_size overlap ps (overlap_text ++ ' ' :: p)
          (pos - overlap_text.length) (pos + p.length + 2) chunks'
      else
        let cc' := if cc.isEmpty then p else cc ++ ' ' :: p
        let cs' := if cc.isEmpty then pos else cs
        createChunksGo chunk_size overlap ps cc' cs' (pos + p.length + 2) chunks

/-- `SemanticSearcher._create_chunks` (lines 30–88). -/
def createChunks (text : Str) (chunk_size : ℕ := 500) (overlap : ℕ := 100) :
    List (Str × ℕ × ℕ) :=
  createChunksGo chunk_size overlap (splitOnNN text) [] 0 0 []

/-- `SemanticSearcher.search` (lines 90–173) up to its guard: with zero
chunks the function returns `[]` before touching the embedding model; the
rest of the pipeline (encoding, cosine scoring, top-k selection and the
position dedup) depends on the external model and is abstracted as
`rest`. -/
def semSearchGuard (rest : List (Str × ℕ × ℕ) → List SemanticMatch)
    (text : Str) : List SemanticMatch :=
  let chunks := createChunks text 500 100
  if chunks.isEmpty then [] else rest chunks

/-- `_deduplicate_by_position` lines 183–191: one step of the
position-keyed dict build; on a key collision the stored match is replaced
only when the new score is strictly higher. -/
def posMapUpdate : List ((ℕ × ℕ) × SemanticMatch) → SemanticMatch →
    List ((ℕ × ℕ) × SemanticMatch)
  | [], m => [((m.char_start, m.char_end), m)]
  | (k, v) :: rest, m =>
      if k = (m.char_start, m.char_end) then
        if v.similarity_score < m.similarity_score then (k, m) :: rest
        else (k, v) :: rest
      else (k, v) :: posMapUpdate rest m

/-- `SemanticSearcher._deduplicate_by_position` (lines 175–193); Python
dicts preserve key insertion order, so `list(position_map.values())` lists
positions in first-encounter order. -/
def dedupByPosition (ms : List SemanticMatch) : List SemanticMatch :=
  if ms.isEmpty then [] else (ms.foldl posMapUpdate []).map Prod.snd

/-- Specification-side description of position dedup (claim C10): among the
matches sharing a position, keep the best score, the *earliest* such match
winning ties (replacement is on strictly greater score only). -/
def specKeepBest (m : SemanticMatch) (others : List SemanticMatch) :
    SemanticMatch :=
  others.foldl
    (fun best c => if best.similarity_score < c.similarity_score then c else best)
    m

/-- Specification-side description of position dedup (claim C10): one
output per distinct `(char_start, char_end)` in first-encounter order. -/
def specDedup : List SemanticMatch → List SemanticMatch
  | [] => []
  | m :: rest =>
      specKeepBest m (rest.filter
        (fun c => (c.char_start, c.char_end) = (m.char_start, m.char_end))) ::
      specDedup (rest.filter
        (fun c => ¬ ((c.char_start, c.char_end) = (m.char_start, m.char_end))))
termination_by l => l.length
decreasing_by
  exact Nat.lt_succ_of_le (List.length_filter_le _ rest)

/-! ### Text-similarity dedup (`activity_classifier.py`)

`deduplicate_excerpts` consults only the `text` (and, for logging, the
`chunk_id`) of each result record, so records are modelled by those two
fields.  `difflib.SequenceMatcher(None, a, b).ratio()` is Python-stdlib
code external to this repository and enters as the parameter `sim`. -/

/-- A classification result record as consumed by `deduplicate_excerpts`. -/
structure ResultRec where
  chunk_id : Str
  text : Str
deriving DecidableEq

/-- `deduplicate_excerpts` lines 330–352 (the greedy uniqueness loop): a
record is dropped when some already-retained record's stripped lowered text
is similar at or above the threshold (the source breaks at the first such
record; only retention is observable, so `any` is equivalent). -/
def dedupExcerptsGreedy (sim : Str → Str → ℚ) (θ : ℚ)
    (unique_results : List ResultRec) : List ResultRec → List ResultRec
  | [] => unique_results
  | r :: rest =>
      if unique_results.any (fun u =>
          θ ≤ sim (pyLower (pyStrip r.text)) (pyLower (pyStrip u.text))) then
        dedupExcerptsGreedy sim θ unique_results rest
      else dedupExcerptsGreedy sim θ (unique_results ++ [r]) rest

/-- `activity_classifier.deduplicate_excerpts` (lines 296–360): drop
records with empty/whitespace text, sort by raw text length descending
(stably), then keep greedily the records not similar to an earlier-kept
one. -/
def deduplicateExcerpts (sim : Str → Str → ℚ) (θ : ℚ)
    (results : List ResultRec) : List ResultRec :=
  let non_empty := results.filter (fun r => ¬ (pyStrip r.text).isEmpty)
  if non_empty.isEmpty then []
  else
    dedupExcerptsGreedy sim θ []
      (pySortDescBy (fun r => r.text.length) non_empty)

/-- Well-formedness of a produced span against the document: non-empty
in-bounds offsets and text occurring contiguously in the document. -/
def spanOk (text : Str) (r : Str × ℕ × ℕ) : Prop :=
  r.2.1 < r.2.2 ∧ r.2.2 ≤ text.length ∧ r.1 <:+: text

/-- The 249-character document `" qqq aaa…a"`: one paragraph whose stripped
length (248) is between 200 and 1000, with a leading space. -/
def cexDoc : Str := ' ' :: ('q' :: 'q' :: 'q' :: ' ' :: List.replicate 244 'a')

theorem pyInsertAsc_perm {α : Type} (key : α → ℕ) (x : α) (l : List α) :
    List.Perm (pyInsertAsc key x l) (x :: l) := by
  induction l with
  | nil => rfl
  | cons h t ih =>
      simp only [pyInsertAsc]
      split
      · exact List.Perm.refl _
      · exact (List.Perm.cons h ih).trans (List.Perm.swap x h t)

theorem pySortAscBy_perm {α : Type} (key : α → ℕ) (l : List α) :
    List.Perm (pySortAscBy key l) l := by
  induction l with
  | nil => rfl
  | cons x xs ih =>
      exact (pyInsertAsc_perm key x (pySortAscBy key xs)).trans (ih.cons x)

theorem pyInsertDesc_perm {α : Type} (key : α → ℕ) (x : α) (l : List α) :
    List.Perm (pyInsertDesc key x l) (x :: l) := by
  induction l with
  | nil => rfl
  | cons h t ih =>
      simp only [pyInsertDesc]
      split
      · exact List.Perm.refl _
      · exact (List.Perm.cons h ih).trans (List.Perm.swap x h t)

theorem pySortDescBy_perm {α : Type} (key : α → ℕ) (l : List α) :
    List.Perm (pySortDescBy key l) l := by
  induction l with
  | nil => rfl
  | cons x xs ih =>
      exact (pyInsertDesc_perm key x (pySortDescBy key xs)).trans (ih.cons x)

theorem pyInsertDesc_sorted {α : Type} (key : α → ℕ) (x : α) (l : List α)
    (hl : l.Sorted (fun a b => key b ≤ key a)) :
    (pyInsertDesc key x l).Sorted (fun a b => key b ≤ key a) := by
  induction l with
  | nil => simp [pyInsertDesc]
  | cons h t ih =>
      simp only [pyInsertDesc]
      rcases List.sorted_cons.mp hl with ⟨hh, ht⟩
      split
      · rename_i hkey
        refine List.sorted_cons.mpr ⟨?_, hl⟩
        intro b hb
        rcases List.mem_cons.mp hb with hb | hb
        · subst hb; exact hkey
        · exact le_trans (hh b hb) hkey
      · rename_i hkey
        refine List.sorted_cons.mpr ⟨?_, ih ht⟩
        intro b hb
        have hbmem : b ∈ x :: t := (pyInsertDesc_perm key x t).mem_iff.mp hb
        rcases List.mem_cons.mp hbmem with hb | hb
        · subst hb; omega
        · exact hh b hb

theorem pySortDescBy_sorted {α : Type} (key : α → ℕ) (l : List α) :
    (pySortDescBy key l).Sorted (fun a b => key b ≤ key a) := by
  induction l with
  | nil => simp [pySortDescBy]
  | cons x xs ih => exact pyInsertDesc_sorted key x _ ih

theorem pySortDescBy_eq_self {α : Type} (key : α → ℕ) (l : List α)
    (hl : l.Sorted (fun a b => key b ≤ key a)) : pySortDescBy key l = l := by
  induction l with
  | nil => rfl
  | cons x xs ih =>
      rcases List.sorted_cons.mp hl with ⟨hx, hxs⟩
      rw [pySortDescBy, ih hxs]
      cases xs with
      | nil => rfl
      | cons y ys =>
          have : key y ≤ key x := hx y (by simp)
          simp [pyInsertDesc, this]

theorem coversAt_cons (c : CombinedMatch) (cs : List CombinedMatch) (x : ℕ) :
    coversAt (c :: cs) x ↔ (c.char_start ≤ x ∧ x < c.char_end) ∨ coversAt cs x := by
  unfold coversAt
  constructor
  · rintro ⟨m, hm, hx⟩
    rcases List.mem_cons.mp hm with h | h
    · exact Or.inl (h ▸ hx)
    · exact Or.inr ⟨m, h, hx⟩
  · rintro (hx | ⟨m, hm, hx⟩)
    · exact ⟨c, List.mem_cons_self c cs, hx⟩
    · exact ⟨m, List.mem_cons_of_mem c hm, hx⟩

theorem coversAt_append (a b : List CombinedMatch) (x : ℕ) :
    coversAt (a ++ b) x ↔ coversAt a x ∨ coversAt b x := by
  unfold coversAt
  constructor
  · rintro ⟨m, hm, hx⟩
    rcases List.mem_append.mp hm with h | h
    · exact Or.inl ⟨m, h, hx⟩
    · exact Or.inr ⟨m, h, hx⟩
  · rintro (⟨m, hm, hx⟩ | ⟨m, hm, hx⟩)
    · exact ⟨m, List.mem_append_left _ hm, hx⟩
    · exact ⟨m, List.mem_append_right _ hm, hx⟩

theorem coversAt_perm {l l' : List CombinedMatch} (h : List.Perm l l') (x : ℕ) :
    coversAt l x ↔ coversAt l' x := by
  unfold coversAt
  constructor <;> rintro ⟨m, hm, hx⟩
  · exact ⟨m, h.mem_iff.mp hm, hx⟩
  · exact ⟨m, h.mem_iff.mpr hm, hx⟩

/-- When the computed overlap fraction reaches a positive threshold the two
spans genuinely overlap. -/
theorem theta_le_overlap {θ : ℚ} {s1 e1 s2 e2 : ℕ} (hθ : 0 < θ)
    (h : θ ≤ calcOverlap s1 e1 s2 e2) : max s1 s2 < min e1 e2 := by
  by_contra hc
  push_neg at hc
  have h0 : calcOverlap s1 e1 s2 e2 = 0 := by
    simp only [calcOverlap]
    rw [if_pos hc]
  rw [h0] at h
  linarith

theorem mergeSemInto_char_start (c : CombinedMatch) (m : SemanticMatch) :
    (mergeSemInto c m).char_start = min c.char_start m.char_start := by
  unfold mergeSemInto; split <;> rfl

theorem mergeSemInto_char_end (c : CombinedMatch) (m : SemanticMatch) :
    (mergeSemInto c m).char_end = max c.char_end m.char_end := by
  unfold mergeSemInto; split <;> rfl

theorem mergeSemInto_similarity_score (c : CombinedMatch) (m : SemanticMatch) :
    (mergeSemInto c m).similarity_score = m.similarity_score := by
  unfold mergeSemInto; split <;> rfl

theorem absorbSem_coversAt {θ : ℚ} (hθ : 0 < θ) (m : SemanticMatch) :
    ∀ (L L' : List CombinedMatch), absorbSem θ m L = some L' → ∀ x : ℕ,
      coversAt L' x ↔ coversAt L x ∨ (m.char_start ≤ x ∧ x < m.char_end) := by
  intro L
  induction L with
  | nil => intro L' h; simp [absorbSem] at h
  | cons c cs ih =>
      intro L' h x
      rw [absorbSem] at h
      split at h
      · rename_i hcond
        have hov := theta_le_overlap hθ hcond.2
        have hL' : L' = mergeSemInto c m :: cs := (Option.some_inj.mp h).symm
        subst hL'
        rw [coversAt_cons, coversAt_cons, mergeSemInto_char_start,
          mergeSemInto_char_end]
        constructor
        · rintro (hx | hx)
          · rcases (by omega :
              (c.char_start ≤ x ∧ x < c.char_end) ∨
                (m.char_start ≤ x ∧ x < m.char_end)) with h' | h'
            · exact Or.inl (Or.inl h')
            · exact Or.inr h'
          · exact Or.inl (Or.inr hx)
        · rintro ((hx | hx) | hx)
          · exact Or.inl (by omega)
          · exact Or.inr hx
          · exact Or.inl (by omega)
      · rcases hrec : absorbSem θ m cs with _ | cs'
        · rw [hrec] at h; simp at h
        · rw [hrec] at h
          simp only [Option.map_some'] at h
          have hL' : L' = c :: cs' := (Option.some_inj.mp h).symm
          subst hL'
          rw [coversAt_cons, coversAt_cons, ih cs' hrec x]
          tauto

theorem processSem_coversAt {θ : ℚ} (hθ : 0 < θ) (L : List CombinedMatch)
    (m : SemanticMatch) (x : ℕ) :
    coversAt (processSem θ L m) x ↔
      coversAt L x ∨ (m.char_start ≤ x ∧ x < m.char_end) := by
  unfold processSem
  rcases h : absorbSem θ m L with _ | L'
  · rw [coversAt_append, coversAt_cons]
    unfold semOnlyMatch coversAt
    simp only [List.not_mem_nil, false_and, exists_false, or_false]
  · exact absorbSem_coversAt hθ m L L' h x

theorem foldl_processSem_coversAt {θ : ℚ} (hθ : 0 < θ)
    (sems : List SemanticMatch) :
    ∀ (L : List CombinedMatch) (x : ℕ),
      coversAt (sems.foldl (processSem θ) L) x ↔
        coversAt L x ∨ semCoversAt sems x := by
  induction sems with
  | nil =>
      intro L x
      simp [semCoversAt]
  | cons s rest ih =>
      intro L x
      rw [List.foldl_cons, ih (processSem θ L s) x, processSem_coversAt hθ]
      unfold semCoversAt
      constructor
      · rintro ((h | h) | h)
        · exact Or.inl h
        · exact Or.inr ⟨s, List.mem_cons_self s rest, h⟩
        · rcases h with ⟨m, hm, hx⟩
          exact Or.inr ⟨m, List.mem_cons_of_mem s hm, hx⟩
      · rintro (h | ⟨m, hm, hx⟩)
        · exact Or.inl (Or.inl h)
        · rcases List.mem_cons.mp hm with h | h
          · exact Or.inl (Or.inr (h ▸ hx))
          · exact Or.inr ⟨m, h, hx⟩

theorem kwToCombined_coversAt (kws : List KeywordMatch) (x : ℕ) :
    coversAt (kws.map kwToCombined) x ↔ kwCoversAt kws x := by
  unfold coversAt kwCoversAt
  constructor
  · rintro ⟨m, hm, hx⟩
    rcases List.mem_map.mp hm with ⟨k, hk, rfl⟩
    exact ⟨k, hk, hx⟩
  · rintro ⟨k, hk, hx⟩
    exact ⟨kwToCombined k, List.mem_map.mpr ⟨k, hk, rfl⟩, hx⟩

theorem finalMergeInto_char_start (last cur : CombinedMatch) :
    (finalMergeInto last cur).char_start = min last.char_start cur.char_start := by
  unfold finalMergeInto
  dsimp only
  repeat' split
  all_goals rfl

theorem finalMergeInto_char_end (last cur : CombinedMatch) :
    (finalMergeInto last cur).char_end = max last.char_end cur.char_end := by
  unfold finalMergeInto
  dsimp only
  repeat' split
  all_goals rfl

theorem finalMergeInto_similarity_score (last cur : CombinedMatch) :
    (finalMergeInto last cur).similarity_score =
      max last.similarity_score cur.similarity_score := by
  unfold finalMergeInto
  dsimp only
  rcases lt_or_ge last.similarity_score cur.similarity_score with h | h
  · rw [if_pos h]
    repeat' split
    all_goals simp [max_eq_right (le_of_lt h)]
  · rw [if_neg (not_lt.mpr h)]
    repeat' split
    all_goals simp [max_eq_left h]

theorem finalDedupGo_coversAt {θ : ℚ} (hθ : 0 < θ) :
    ∀ (ms : List CombinedMatch) (last : CombinedMatch) (x : ℕ),
      coversAt (finalDedupGo θ last ms) x ↔
        (last.char_start ≤ x ∧ x < last.char_end) ∨ coversAt ms x := by
  intro ms
  induction ms with
  | nil =>
      intro last x
      rw [finalDedupGo, coversAt_cons]
  | cons cur rest ih =>
      intro last x
      rw [finalDedupGo]
      split
      · rename_i hcond
        have hov := theta_le_overlap hθ hcond
        rw [ih (finalMergeInto last cur) x, finalMergeInto_char_start,
          finalMergeInto_char_end, coversAt_cons]
        constructor
        · rintro (hx | hx)
          · rcases (by omega :
              (last.char_start ≤ x ∧ x < last.char_end) ∨
                (cur.char_start ≤ x ∧ x < cur.char_end)) with h' | h'
            · exact Or.inl h'
            · exact Or.inr (Or.inl h')
          · exact Or.inr (Or.inr hx)
        · rintro (hx | (hx | hx))
          · exact Or.inl (by omega)
          · exact Or.inl (by omega)
          · exact Or.inr hx
      · rw [coversAt_cons, ih cur x, coversAt_cons]

theorem absorbSem_ne_nil {θ : ℚ} {m : SemanticMatch} :
    ∀ {L L' : List CombinedMatch}, absorbSem θ m L = some L' → L' ≠ [] := by
  intro L
  induction L with
  | nil => intro L' h; simp [absorbSem] at h
  | cons c cs ih =>
      intro L' h
      rw [absorbSem] at h
      split at h
      · rw [← Option.some_inj.mp h]; simp
      · rcases hrec : absorbSem θ m cs with _ | cs'
        · rw [hrec] at h; simp at h
        · rw [hrec] at h
          simp only [Option.map_some'] at h
          rw [← Option.some_inj.mp h]; simp

theorem processSem_ne_nil (θ : ℚ) (L : List CombinedMatch) (m : SemanticMatch) :
    processSem θ L m ≠ [] := by
  unfold processSem
  rcases h : absorbSem θ m L with _ | L'
  · simp
  · exact absorbSem_ne_nil h

theorem foldl_processSem_eq_nil {θ : ℚ} :
    ∀ (sems : List SemanticMatch) (L : List CombinedMatch),
      sems.foldl (processSem θ) L = [] → L = [] ∧ sems = [] := by
  intro sems
  induction sems with
  | nil => intro L h; exact ⟨h, rfl⟩
  | cons s rest ih =>
      intro L h
      rw [List.foldl_cons] at h
      exact absurd (ih (processSem θ L s) h).1 (processSem_ne_nil θ L s)

theorem finalDedupGo_ne_nil (θ : ℚ) :
    ∀ (ms : List CombinedMatch) (last : CombinedMatch),
      finalDedupGo θ last ms ≠ [] := by
  intro ms
  induction ms with
  | nil => intro last; simp [finalDedupGo]
  | cons cur rest ih =>
      intro last
      rw [finalDedupGo]
      split
      · exact ih _
      · simp

theorem finalDedupPass_coversAt {θ : ℚ} (hθ : 0 < θ)
    (l : List CombinedMatch) (x : ℕ) :
    coversAt (finalDedupPass θ l) x ↔ coversAt l x := by
  cases l with
  | nil => exact Iff.rfl
  | cons m ms =>
      rw [show finalDedupPass θ (m :: ms) = finalDedupGo θ m ms from rfl,
        finalDedupGo_coversAt hθ ms m x, coversAt_cons]

theorem finalDedupPass_ne_nil {θ : ℚ} {l : List CombinedMatch} (h : l ≠ []) :
    finalDedupPass θ l ≠ [] := by
  cases l with
  | nil => exact absurd rfl h
  | cons m ms => exact finalDedupGo_ne_nil θ ms m

/-- C2.  Reconciliation is a cover, not a loss: for any positive threshold
(the shipped configuration is `0.5`), a character position is covered by the
ranges of the reconciled spans exactly when it is covered by the ranges of
the keyword inputs or of the semantic inputs.  (`deduplicate` is `none`
only when both inputs are empty, in which case the equivalence is the
trivial `False ↔ False`.) -/
theorem deduplicate_covers_union (θ : ℚ) (hθ : 0 < θ)
    (kws : List KeywordMatch) (sems : List SemanticMatch) (x : ℕ) :
    coversAt ((deduplicate θ kws sems).getD []) x ↔
      kwCoversAt kws x ∨ semCoversAt sems x := by
  have hperm := pySortAscBy_perm (fun c => c.char_start)
    (sems.foldl (processSem θ) (kws.map kwToCombined))
  have hchain :
      coversAt (pySortAscBy (fun c => c.char_start)
        (sems.foldl (processSem θ) (kws.map kwToCombined))) x ↔
        kwCoversAt kws x ∨ semCoversAt sems x := by
    rw [coversAt_perm hperm x, foldl_processSem_coversAt hθ,
      kwToCombined_coversAt]
  unfold deduplicate
  by_cases hnil : sems.foldl (processSem θ) (kws.map kwToCombined) = []
  · rcases foldl_processSem_eq_nil sems _ hnil with ⟨hmap, hsems⟩
    have hkws : kws = [] := by
      cases kws with
      | nil => rfl
      | cons k ks => simp at hmap
    subst hsems hkws
    simp only [List.map_nil, List.foldl_nil, pySortAscBy, finalDedupPass,
      List.isEmpty_nil, if_true, Option.getD_none]
    unfold coversAt kwCoversAt semCoversAt
    simp
  · have hsne : pySortAscBy (fun c => c.char_start)
        (sems.foldl (processSem θ) (kws.map kwToCombined)) ≠ [] := by
      intro h
      rw [h] at hperm
      exact hnil hperm.symm.eq_nil
    have hfne := finalDedupPass_ne_nil (θ := θ) hsne
    rw [if_neg (by simpa [List.isEmpty_eq_true] using hfne), Option.getD_some,
      finalDedupPass_coversAt hθ, hchain]

/-- C2 witness: the cover equivalence instantiated at the default threshold
`0.5`, one keyword span `[100,200)`, one semantic span `[150,250)`, and the
position `x = 240` (covered only via the semantic input). -/
theorem deduplicate_covers_union_witness :
    (0 : ℚ) < 1/2 ∧
      (coversAt ((deduplicate (1/2)
          [{ chunk_id := "keyword_0000".toList, text := "t".toList,
             matched_keywords := ["k".toList], char_start := 100,
             char_end := 200 }]
          [{ chunk_id := "semantic_0000".toList, text := "uu".toList,
             similarity_score := 7/10, matched_query := "q".toList,
             sector := "s".toList, char_start := 150, char_end := 250 }]).getD [])
          240 ↔
        kwCoversAt
          [{ chunk_id := "keyword_0000".toList, text := "t".toList,
             matched_keywords := ["k".toList], char_start := 100,
             char_end := 200 }] 240 ∨
        semCoversAt
          [{ chunk_id := "semantic_0000".toList, text := "uu".toList,
             similarity_score := 7/10, matched_query := "q".toList,
             sector := "s".toList, char_start := 150, char_end := 250 }] 240) :=
  ⟨by norm_num, deduplicate_covers_union (1/2) (by norm_num) _ _ 240⟩

theorem absorbSem_first_hit (θ : ℚ) (m : SemanticMatch) :
    ∀ (L : List CombinedMatch) (j : ℕ) (hj : j < L.length),
      semHit θ m (L.get ⟨j, hj⟩) →
      (∀ i (hi : i < j), ¬ semHit θ m (L.get ⟨i, hi.trans hj⟩)) →
      absorbSem θ m L = some (L.set j (mergeSemInto (L.get ⟨j, hj⟩) m)) := by
  intro L
  induction L with
  | nil => intro j hj; simp at hj
  | cons c cs ih =>
      intro j hj hhit hpre
      cases j with
      | zero =>
          have hhit' : semHit θ m c := hhit
          unfold semHit at hhit'
          rw [absorbSem, if_pos hhit']
          rfl
      | succ j' =>
          have hc : ¬ semHit θ m c := hpre 0 (Nat.succ_pos j')
          unfold semHit at hc
          rw [absorbSem, if_neg hc]
          have hj' : j' < cs.length := Nat.lt_of_succ_lt_succ hj
          have hhit' : semHit θ m (cs.get ⟨j', hj'⟩) := hhit
          have hpre' : ∀ i (hi : i < j'), ¬ semHit θ m (cs.get ⟨i, hi.trans hj'⟩) :=
            fun i hi => hpre (i + 1) (Nat.succ_lt_succ hi)
          rw [ih j' hj' hhit' hpre']
          rfl

theorem absorbSem_none_of_no_hit (θ : ℚ) (m : SemanticMatch) :
    ∀ L : List CombinedMatch, (∀ c ∈ L, ¬ semHit θ m c) →
      absorbSem θ m L = none := by
  intro L
  induction L with
  | nil => intro _; rfl
  | cons c cs ih =>
      intro h
      have hc := h c (List.mem_cons_self c cs)
      unfold semHit at hc
      rw [absorbSem, if_neg hc, ih (fun d hd => h d (List.mem_cons_of_mem c hd))]
      rfl

/-- C3.  Each semantic span is tested in input order against the reconciled
spans; the first one (in encounter order) that carries the keyword source
and overlaps by at least the threshold — measured over the semantic span's
own length — absorbs it via `mergeSemInto` (sources extended, range widened
to the union, semantic score/query/sector adopted, longer text kept,
`found_by = "both"`), leaving every other reconciled span unchanged; with no
such span, the semantic match is appended as a new semantic-only span.  In
the concrete scenario, lexical `[100,200)` and semantic `[150,250)` at the
default threshold `0.5` reconcile to the single span `[100,250)` tagged
`both`. -/
theorem semantic_overlap_first_absorbs :
    (∀ (θ : ℚ) (m : SemanticMatch) (L : List CombinedMatch) (j : ℕ)
        (hj : j < L.length),
        semHit θ m (L.get ⟨j, hj⟩) →
        (∀ i (hi : i < j), ¬ semHit θ m (L.get ⟨i, hi.trans hj⟩)) →
        processSem θ L m = L.set j (mergeSemInto (L.get ⟨j, hj⟩) m)) ∧
    (∀ (θ : ℚ) (m : SemanticMatch) (L : List CombinedMatch),
        (∀ c ∈ L, ¬ semHit θ m c) →
        processSem θ L m = L ++ [semOnlyMatch L.length m]) ∧
    deduplicate (1/2)
        [{ chunk_id := "keyword_0000".toList, text := "t".toList,
           matched_keywords := ["k".toList], char_start := 100,
           char_end := 200 }]
        [{ chunk_id := "semantic_0000".toList, text := "uu".toList,
           similarity_score := 7/10, matched_query := "q".toList,
           sector := "s".toList, char_start := 150, char_end := 250 }] =
      some [{ chunk_id := "keyword_0000".toList, text := "uu".toList,
              char_start := 100, char_end := 250,
              sources := ["keyword_search".toList, "semantic_search".toList],
              matched_keywords := ["k".toList], similarity_score := 7/10,
              matched_query := "q".toList, sector := "s".toList,
              found_by := "both".toList }] := by
  refine ⟨?_, ?_, by
    norm_num [deduplicate, processSem, absorbSem, calcOverlap, mergeSemInto,
      kwToCombined, finalDedupPass, finalDedupGo, pySortAscBy, pyInsertAsc]⟩
  · intro θ m L j hj hhit hpre
    unfold processSem
    rw [absorbSem_first_hit θ m L j hj hhit hpre]
  · intro θ m L h
    unfold processSem
    rw [absorbSem_none_of_no_hit θ m L h]

/-- C3 witness: a combined list whose first element lacks the keyword
source while the second overlaps the semantic span `[25,45)` by `3/4`; the
second (index 1) absorbs the span and the first is untouched. -/
theorem semantic_overlap_first_absorbs_witness :
    processSem (1/2)
        [{ chunk_id := "combined_0000".toList, text := "x".toList,
           char_start := 0, char_end := 10,
           sources := ["semantic_search".toList] },
         { chunk_id := "keyword_0000".toList, text := "y".toList,
           char_start := 20, char_end := 40,
           sources := ["keyword_search".toList] }]
        { chunk_id := "semantic_0000".toList, text := "zz".toList,
          similarity_score := 3/5, matched_query := "q".toList,
          sector := "s".toList, char_start := 25, char_end := 45 } =
      [{ chunk_id := "combined_0000".toList, text := "x".toList,
         char_start := 0, char_end := 10,
         sources := ["semantic_search".toList] },
       mergeSemInto
         { chunk_id := "keyword_0000".toList, text := "y".toList,
           char_start := 20, char_end := 40,
           sources := ["keyword_search".toList] }
         { chunk_id := "semantic_0000".toList, text := "zz".toList,
           similarity_score := 3/5, matched_query := "q".toList,
           sector := "s".toList, char_start := 25, char_end := 45 }] :=
  semantic_overlap_first_absorbs.1 (1/2) _ _ 1 (by norm_num)
    (by
      unfold semHit
      refine ⟨by decide, ?_⟩
      norm_num [calcOverlap])
    (fun i hi => by
      have h0 : i = 0 := by omega
      subst h0
      unfold semHit
      simp)

/-! ### Similarity scores through merging (claim C5) -/

/-- C5 (amended).  In the cross-store pass the absorbed semantic match's
score overwrites the reconciled span's score (last write wins, not a
maximum); only `_final_dedup_pass` keeps the larger of the two scores when
it merges two combined spans. -/
theorem similarity_last_write_and_final_max :
    (∀ (θ : ℚ) (c : CombinedMatch) (A B : SemanticMatch),
        semHit θ A c → semHit θ B (mergeSemInto c A) →
        processSem θ (processSem θ [c] A) B =
          [mergeSemInto (mergeSemInto c A) B] ∧
        (mergeSemInto (mergeSemInto c A) B).similarity_score =
          B.similarity_score) ∧
    (∀ last cur : CombinedMatch,
        (finalMergeInto last cur).similarity_score =
          max last.similarity_score cur.similarity_score) := by
  constructor
  · intro θ c A B hA hB
    unfold semHit at hA hB
    have h1 : processSem θ [c] A = [mergeSemInto c A] := by
      unfold processSem
      rw [absorbSem, if_pos hA]
    rw [h1]
    have h2 : processSem θ [mergeSemInto c A] B =
        [mergeSemInto (mergeSemInto c A) B] := by
      unfold processSem
      rw [absorbSem, if_pos hB]
    exact ⟨h2, mergeSemInto_similarity_score _ _⟩
  · exact finalMergeInto_similarity_score

/-- C5 witness: two same-position semantic matches (scores `9/10` then
`1/5`) absorbed into one keyword-sourced span; the surviving score is the
second (last-written) one. -/
theorem similarity_last_write_and_final_max_witness :
    processSem (1/2)
        (processSem (1/2)
          [{ chunk_id := "keyword_0000".toList, text := "t".toList,
             char_start := 0, char_end := 100,
             sources := ["keyword_search".toList] }]
          { chunk_id := "semantic_0000".toList, text := "t".toList,
            similarity_score := 9/10, matched_query := "q".toList,
            sector := "s".toList, char_start := 0, char_end := 100 })
        { chunk_id := "semantic_0001".toList, text := "t".toList,
          similarity_score := 1/5, matched_query := "q".toList,
          sector := "s".toList, char_start := 0, char_end := 100 } =
      [mergeSemInto
        (mergeSemInto
          { chunk_id := "keyword_0000".toList, text := "t".toList,
            char_start := 0, char_end := 100,
            sources := ["keyword_search".toList] }
          { chunk_id := "semantic_0000".toList, text := "t".toList,
            similarity_score := 9/10, matched_query := "q".toList,
            sector := "s".toList, char_start := 0, char_end := 100 })
        { chunk_id := "semantic_0001".toList, text := "t".toList,
          similarity_score := 1/5, matched_query := "q".toList,
          sector := "s".toList, char_start := 0, char_end := 100 }] ∧
    (mergeSemInto
        (mergeSemInto
          { chunk_id := "keyword_0000".toList, text := "t".toList,
            char_start := 0, char_end := 100,
            sources := ["keyword_search".toList] }
          { chunk_id := "semantic_0000".toList, text := "t".toList,
            similarity_score := 9/10, matched_query := "q".toList,
            sector := "s".toList, char_start := 0, char_end := 100 })
        { chunk_id := "semantic_0001".toList, text := "t".toList,
          similarity_score := 1/5, matched_query := "q".toList,
          sector := "s".toList, char_start := 0, char_end := 100 }).similarity_score =
      ({ chunk_id := "semantic_0001".toList, text := "t".toList,
         similarity_score := 1/5, matched_query := "q".toList,
         sector := "s".toList, char_start := 0, char_end := 100 }
        : SemanticMatch).similarity_score :=
  similarity_last_write_and_final_max.1 (1/2) _ _ _
    (by
      unfold semHit
      refine ⟨by decide, ?_⟩
      norm_num [calcOverlap])
    (by
      unfold semHit
      refine ⟨by decide, ?_⟩
      norm_num [calcOverlap, mergeSemInto])

/-- C5 counterexample: a keyword span `[0,100)` absorbs semantic matches
with scores `9/10` and then `1/5`; the reconciled span's score is `1/5`,
not the maximum (`9/10`) of the scores ever attributed to it. -/
theorem similarity_score_not_max_cex :
    ((deduplicate (1/2)
        [{ chunk_id := "keyword_0000".toList, text := "t".toList,
           matched_keywords := [], char_start := 0, char_end := 100 }]
        [{ chunk_id := "semantic_0000".toList, text := "t".toList,
           similarity_score := 9/10, matched_query := "q".toList,
           sector := "s".toList, char_start := 0, char_end := 100 },
         { chunk_id := "semantic_0001".toList, text := "t".toList,
           similarity_score := 1/5, matched_query := "q".toList,
           sector := "s".toList, char_start := 0, char_end := 100 }]).getD
        []).map (fun m => m.similarity_score) = [1/5] ∧
      max ((9 : ℚ)/10) ((1 : ℚ)/5) = 9/10 ∧ ¬ ((1 : ℚ)/5 = (9 : ℚ)/10) := by
  refine ⟨by
    norm_num [deduplicate, processSem, absorbSem, calcOverlap, mergeSemInto,
      kwToCombined, finalDedupPass, finalDedupGo, pySortAscBy, pyInsertAsc],
    by norm_num, by norm_num⟩

/-! ### Construction-time validation (claim C6) -/

/-- C6 counterexample: constructing a `CrossStoreDeduplicator` with the
out-of-range overlap threshold `3/2` does not fail — the value is stored
unchanged. -/
theorem threshold_not_validated_cex :
    (mkDeduplicator (3/2)).overlap_threshold = 3/2 ∧ ¬ ((3 : ℚ)/2 ≤ 1) :=
  ⟨rfl, by norm_num⟩

/-- C6 (amended).  `CrossStoreDeduplicator.__init__` accepts every threshold
value and stores it unchanged: there is no validation, no clamping and no
failure at construction time. -/
theorem mkDeduplicator_stores_any_threshold :
    ∀ θ : ℚ, (mkDeduplicator θ).overlap_threshold = θ :=
  fun _ => rfl

theorem storePref_refl (st : KwStore) : storePref st st :=
  fun _ => ⟨[], List.append_nil _⟩

theorem storePref_trans {s t u : KwStore} (h1 : storePref s t)
    (h2 : storePref t u) : storePref s u :=
  fun p => (h1 p).trans (h2 p)

theorem storeRead_set_self :
    ∀ (st : KwStore) (q : ℕ) (v : List Str), q < st.length →
      storeRead (st.set q v) q = v := by
  intro st
  induction st with
  | nil => intro q v h; simp at h
  | cons a as ih =>
      intro q v h
      cases q with
      | zero => rfl
      | succ q' => exact ih q' v (Nat.lt_of_succ_lt_succ h)

theorem storeRead_set_ne :
    ∀ (st : KwStore) (q : ℕ) (v : List Str) (p : ℕ), p ≠ q →
      storeRead (st.set q v) p = storeRead st p := by
  intro st
  induction st with
  | nil => intro q v p _; rfl
  | cons a as ih =>
      intro q v p hne
      cases q with
      | zero =>
          cases p with
          | zero => exact absurd rfl hne
          | succ p' => rfl
      | succ q' =>
          cases p with
          | zero => rfl
          | succ p' => exact ih q' v p' (fun h => hne (by rw [h]))

theorem set_oob : ∀ (st : KwStore) (q : ℕ) (v : List Str),
    st.length ≤ q → st.set q v = st := by
  intro st
  induction st with
  | nil => intro q v _; cases q <;> rfl
  | cons a as ih =>
      intro q v h
      cases q with
      | zero => simp at h
      | succ q' => rw [List.set_cons_succ, ih q' v (Nat.le_of_succ_le_succ h)]

theorem storeRead_set_append (st : KwStore) (q : ℕ) (X : List Str) (p : ℕ) :
    storeRead st p <+: storeRead (st.set q (storeRead st q ++ X)) p := by
  by_cases hq : p = q
  · subst hq
    by_cases hlen : p < st.length
    · rw [storeRead_set_self st p _ hlen]
      exact ⟨X, rfl⟩
    · rw [set_oob st p _ (le_of_not_lt hlen)]
  · rw [storeRead_set_ne st q _ p hq]

theorem storeRead_append_one (st : KwStore) (x : List Str) (p : ℕ) :
    storeRead st p <+: storeRead (st ++ [x]) p := by
  by_cases h : p < st.length
  · have : storeRead (st ++ [x]) p = storeRead st p :=
      List.getD_append st [x] [] p h
    rw [this]
  · have h1 : storeRead st p = [] :=
      List.getD_eq_default _ _ (le_of_not_lt h)
    rw [h1]
    exact ⟨storeRead (st ++ [x]) p, rfl⟩

theorem processSemRef_store (θ : ℚ) (acc : List CombinedMatchRef × KwStore)
    (m : SemanticMatch) : storePref acc.2 (processSemRef θ acc m).2 := by
  unfold processSemRef
  rcases absorbSemRef θ m acc.1 with _ | L'
  · exact fun p => storeRead_append_one acc.2 [] p
  · exact storePref_refl acc.2

theorem foldl_processSemRef_store (θ : ℚ) :
    ∀ (sems : List SemanticMatch) (acc : List CombinedMatchRef × KwStore),
      storePref acc.2 (sems.foldl (processSemRef θ) acc).2 := by
  intro sems
  induction sems with
  | nil => intro acc; exact storePref_refl acc.2
  | cons s rest ih =>
      intro acc
      rw [List.foldl_cons]
      exact storePref_trans (processSemRef_store θ acc s)
        (ih (processSemRef θ acc s))

theorem finalMergeIntoRef_store (st : KwStore) (last cur : CombinedMatchRef) :
    storePref st (finalMergeIntoRef st last cur).2 := by
  intro p
  unfold finalMergeIntoRef
  dsimp only
  exact (storeRead_set_append st last.kwPtr _ p).trans
    (storeRead_append_one _ _ p)

theorem finalDedupGoRef_store (θ : ℚ) :
    ∀ (ms : List CombinedMatchRef) (st : KwStore) (last : CombinedMatchRef),
      storePref st (finalDedupGoRef θ st last ms).2 := by
  intro ms
  induction ms with
  | nil => intro st last; exact storePref_refl st
  | cons cur rest ih =>
      intro st last
      rw [finalDedupGoRef]
      split
      · exact storePref_trans (finalMergeIntoRef_store st last cur)
          (ih (finalMergeIntoRef st last cur).2 (finalMergeIntoRef st last cur).1)
      · exact ih st cur

theorem finalDedupPassRef_store (θ : ℚ) (st : KwStore)
    (l : List CombinedMatchRef) : storePref st (finalDedupPassRef θ st l).2 := by
  cases l with
  | nil => exact storePref_refl st
  | cons m ms => exact finalDedupGoRef_store θ ms st m

/-- C9 (amended).  `deduplicate` aliases each keyword input's
`matched_keywords` list into its combined match and `_final_dedup_pass`
extends such a shared list in place, so an input `KeywordMatch` can be
mutated (see the counterexample); the mutation is append-only: after
`deduplicate` returns, the prior contents of every matched-keywords list
object remain a prefix of its contents. -/
theorem deduplicateRef_store_append_only (θ : ℚ)
    (kws : List KeywordMatchRef) (sems : List SemanticMatch)
    (st : KwStore) (p : ℕ) :
    storeRead st p <+: storeRead (deduplicateRef θ kws sems st).2 p := by
  unfold deduplicateRef
  dsimp only
  exact storePref_trans
    (foldl_processSemRef_store θ sems (kws.map kwToCombinedRef, st))
    (finalDedupPassRef_store θ _ _) p

/-- C9 counterexample: two fully overlapping keyword inputs whose
matched-keyword lists are `["a"]` (object 0) and `["b"]` (object 1);
`deduplicate` merges them in the final pass and its in-place `extend`
leaves object 0 — still referenced by the first *input* `KeywordMatch` —
changed to `["a", "b"]`.  The inputs are not left unchanged. -/
theorem deduplicate_mutates_input_keywords_cex :
    storeRead ((deduplicateRef (1/2)
        [{ chunk_id := "keyword_0000".toList, text := "t".toList, kwPtr := 0,
           char_start := 0, char_end := 100 },
         { chunk_id := "keyword_0001".toList, text := "t".toList, kwPtr := 1,
           char_start := 0, char_end := 100 }] []
        [["a".toList], ["b".toList]]).2) 0 = ["a".toList, "b".toList] ∧
      ¬ (["a".toList, "b".toList] = (["a".toList] : List Str)) := by
  constructor
  · norm_num [deduplicateRef, processSemRef, kwToCombinedRef, pySortAscBy,
      pyInsertAsc, finalDedupPassRef, finalDedupGoRef, finalMergeIntoRef,
      calcOverlap, storeRead, pyListSet]
  · decide

theorem specKeepBest_cons (v c : SemanticMatch) (l : List SemanticMatch) :
    specKeepBest v (c :: l) =
      specKeepBest
        (if v.similarity_score < c.similarity_score then c else v) l := by
  simp [specKeepBest]

theorem dedupByPosition_eq_foldl (l : List SemanticMatch) :
    dedupByPosition l = (l.foldl posMapUpdate []).map Prod.snd := by
  cases l with
  | nil => rfl
  | cons m rest => rfl

theorem foldl_posMapUpdate_split :
    ∀ (rest : List SemanticMatch) (k : ℕ × ℕ) (v : SemanticMatch)
      (d : List ((ℕ × ℕ) × SemanticMatch)),
      rest.foldl posMapUpdate ((k, v) :: d) =
        (k, specKeepBest v
            (rest.filter (fun c => (c.char_start, c.char_end) = k))) ::
          (rest.filter (fun c => ¬ ((c.char_start, c.char_end) = k))).foldl
            posMapUpdate d := by
  intro rest
  induction rest with
  | nil => intro k v d; simp [specKeepBest]
  | cons c rest ih =>
      intro k v d
      rw [List.foldl_cons]
      by_cases hk : k = (c.char_start, c.char_end)
      · have hstep : posMapUpdate ((k, v) :: d) c =
            ((k, if v.similarity_score < c.similarity_score then c else v) :: d) := by
          unfold posMapUpdate
          rw [if_pos hk]
          split <;> rfl
        rw [hstep, ih]
        have hfil1 : (c :: rest).filter
            (fun c => decide ((c.char_start, c.char_end) = k)) =
            c :: rest.filter (fun c => decide ((c.char_start, c.char_end) = k)) := by
          rw [List.filter_cons, if_pos (by simp [hk.symm])]
        have hfil2 : (c :: rest).filter
            (fun c => decide (¬ ((c.char_start, c.char_end) = k))) =
            rest.filter (fun c => decide (¬ ((c.char_start, c.char_end) = k))) := by
          rw [List.filter_cons, if_neg (by simp [hk.symm])]
        rw [hfil1, hfil2, specKeepBest_cons]
      · have hstep : posMapUpdate ((k, v) :: d) c =
            (k, v) :: posMapUpdate d c := by
          simp only [posMapUpdate]
          rw [if_neg hk]
        rw [hstep, ih]
        have hfil1 : (c :: rest).filter
            (fun c => decide ((c.char_start, c.char_end) = k)) =
            rest.filter (fun c => decide ((c.char_start, c.char_end) = k)) := by
          rw [List.filter_cons, if_neg (by simp [Ne.symm hk])]
        have hfil2 : (c :: rest).filter
            (fun c => decide (¬ ((c.char_start, c.char_end) = k))) =
            c :: rest.filter (fun c => decide (¬ ((c.char_start, c.char_end) = k))) := by
          rw [List.filter_cons, if_pos (by simp [Ne.symm hk])]
        rw [hfil1, hfil2, List.foldl_cons]

/-- C10.  `_deduplicate_by_position` keeps, for each distinct
`(char_start, char_end)`, the first match attaining the maximal
`similarity_score` (replacement happens only on strictly greater score, so
the earliest of tied maximal matches survives), and returns positions in
first-encounter order (dict insertion order), not sorted by offset — the
behaviour captured by the specification-side `specDedup`/`specKeepBest`. -/
theorem dedupByPosition_first_max_insertion_order :
    ∀ ms : List SemanticMatch, dedupByPosition ms = specDedup ms := by
  intro ms
  induction ms using specDedup.induct with
  | case1 => simp [dedupByPosition, specDedup]
  | case2 m rest ih =>
      rw [dedupByPosition_eq_foldl, List.foldl_cons,
        show posMapUpdate [] m = [((m.char_start, m.char_end), m)] from rfl,
        foldl_posMapUpdate_split rest (m.char_start, m.char_end) m [],
        List.map_cons, specDedup]
      refine congrArg₂ _ rfl ?_
      rw [← dedupByPosition_eq_foldl, ih]

theorem dedupExcerptsGreedy_append (sim : Str → Str → ℚ) (θ : ℚ) :
    ∀ (l uniq : List ResultRec),
      ∃ l', dedupExcerptsGreedy sim θ uniq l = uniq ++ l' ∧ l'.Sublist l := by
  intro l
  induction l with
  | nil => intro uniq; exact ⟨[], (List.append_nil uniq).symm, List.Sublist.refl []⟩
  | cons r rest ih =>
      intro uniq
      rw [dedupExcerptsGreedy]
      split
      · rcases ih uniq with ⟨l', hl, hs⟩
        exact ⟨l', hl, hs.cons r⟩
      · rcases ih (uniq ++ [r]) with ⟨l', hl, hs⟩
        refine ⟨r :: l', ?_, hs.cons₂ r⟩
        rw [hl, List.append_assoc]
        rfl

theorem dedupExcerptsGreedy_pairwise (sim : Str → Str → ℚ) (θ : ℚ) :
    ∀ (l uniq : List ResultRec),
      List.Pairwise (fun a b =>
        sim (pyLower (pyStrip b.text)) (pyLower (pyStrip a.text)) < θ) uniq →
      List.Pairwise (fun a b =>
        sim (pyLower (pyStrip b.text)) (pyLower (pyStrip a.text)) < θ)
        (dedupExcerptsGreedy sim θ uniq l) := by
  intro l
  induction l with
  | nil => intro uniq h; exact h
  | cons r rest ih =>
      intro uniq h
      rw [dedupExcerptsGreedy]
      split
      · exact ih uniq h
      · rename_i hany
        refine ih (uniq ++ [r]) ?_
        rw [List.pairwise_append]
        refine ⟨h, List.pairwise_singleton _ r, ?_⟩
        intro u hu b hb
        rcases List.mem_singleton.mp hb with rfl
        have := List.any_eq_false.mp (Bool.of_not_eq_true hany) u hu
        simp only [decide_eq_true_eq] at this
        exact lt_of_not_le this

theorem dedupExcerptsGreedy_id (sim : Str → Str → ℚ) (θ : ℚ) :
    ∀ (l uniq : List ResultRec),
      (∀ r ∈ l, ∀ u ∈ uniq,
        sim (pyLower (pyStrip r.text)) (pyLower (pyStrip u.text)) < θ) →
      List.Pairwise (fun a b =>
        sim (pyLower (pyStrip b.text)) (pyLower (pyStrip a.text)) < θ) l →
      dedupExcerptsGreedy sim θ uniq l = uniq ++ l := by
  intro l
  induction l with
  | nil => intro uniq _ _; exact (List.append_nil uniq).symm
  | cons r rest ih =>
      intro uniq hcross hpair
      have hany : uniq.any (fun u =>
          decide (θ ≤ sim (pyLower (pyStrip r.text)) (pyLower (pyStrip u.text)))) =
          false := by
        rw [List.any_eq_false]
        intro u hu
        simp only [decide_eq_true_eq]
        exact not_le.mpr (hcross r (List.mem_cons_self r rest) u hu)
      rw [dedupExcerptsGreedy]
      rw [if_neg (by rw [hany]; exact Bool.false_ne_true)]
      rw [ih (uniq ++ [r]) ?_ (List.Pairwise.of_cons hpair), List.append_assoc]
      · rfl
      · intro r' hr' u hu
        rcases List.mem_append.mp hu with h | h
        · exact hcross r' (List.mem_cons_of_mem r hr') u h
        · rcases List.mem_singleton.mp h with rfl
          exact (List.pairwise_cons.mp hpair).1 r' hr'

theorem deduplicateExcerpts_pairwise_aux (sim : Str → Str → ℚ) (θ : ℚ)
    (results : List ResultRec) :
    List.Pairwise (fun a b =>
      sim (pyLower (pyStrip b.text)) (pyLower (pyStrip a.text)) < θ)
      (deduplicateExcerpts sim θ results) := by
  unfold deduplicateExcerpts
  dsimp only
  split
  · exact List.Pairwise.nil
  · exact dedupExcerptsGreedy_pairwise sim θ _ [] List.Pairwise.nil

theorem deduplicateExcerpts_subset_aux (sim : Str → Str → ℚ) (θ : ℚ)
    (results : List ResultRec) :
    (deduplicateExcerpts sim θ results).Sublist
      (pySortDescBy (fun r => r.text.length)
        (results.filter (fun r => ¬ (pyStrip r.text).isEmpty))) := by
  unfold deduplicateExcerpts
  dsimp only
  split
  · exact List.nil_sublist _
  · rcases dedupExcerptsGreedy_append sim θ
      (pySortDescBy (fun r => r.text.length)
        (results.filter (fun r => ¬ (pyStrip r.text).isEmpty))) [] with ⟨l', hl, hs⟩
    rw [hl]
    exact hs

/-- C8.  `deduplicate_excerpts` is idempotent — a second run on its own
output returns it unchanged — and no retained record is similar (at or
above the threshold, as the code computes similarity: later record's
stripped lowered text against the earlier retained one's) to another
retained record.  Both hold for every similarity function, threshold and
record list. -/
theorem deduplicateExcerpts_idempotent_pairwise :
    (∀ (sim : Str → Str → ℚ) (θ : ℚ) (results : List ResultRec),
      deduplicateExcerpts sim θ (deduplicateExcerpts sim θ results) =
        deduplicateExcerpts sim θ results) ∧
    (∀ (sim : Str → Str → ℚ) (θ : ℚ) (results : List ResultRec),
      List.Pairwise (fun a b =>
        sim (pyLower (pyStrip b.text)) (pyLower (pyStrip a.text)) < θ)
        (deduplicateExcerpts sim θ results)) := by
  refine ⟨?_, deduplicateExcerpts_pairwise_aux⟩
  intro sim θ results
  have hsub := deduplicateExcerpts_subset_aux sim θ results
  have hsorted2 : (pySortDescBy (fun r : ResultRec => r.text.length)
      (results.filter (fun r => ¬ (pyStrip r.text).isEmpty))).Sorted
      (fun a b : ResultRec => b.text.length ≤ a.text.length) :=
    pySortDescBy_sorted (fun r : ResultRec => r.text.length) _
  have hsorted : (deduplicateExcerpts sim θ results).Sorted
      (fun a b : ResultRec => b.text.length ≤ a.text.length) :=
    List.Pairwise.sublist hsub hsorted2
  have hne : ∀ r ∈ deduplicateExcerpts sim θ results,
      ¬ (pyStrip r.text).isEmpty = true := by
    intro r hr
    have hmem : r ∈ pySortDescBy (fun r => r.text.length)
        (results.filter (fun r => ¬ (pyStrip r.text).isEmpty)) :=
      hsub.mem hr
    have hmem2 : r ∈ results.filter (fun r => ¬ (pyStrip r.text).isEmpty) :=
      (pySortDescBy_perm (fun r => r.text.length) _).mem_iff.mp hmem
    have := List.of_mem_filter hmem2
    simpa using this
  have hfil : (deduplicateExcerpts sim θ results).filter
      (fun r => ¬ (pyStrip r.text).isEmpty) = deduplicateExcerpts sim θ results :=
    List.filter_eq_self.mpr (fun a ha => by simpa using hne a ha)
  rcases hout : deduplicateExcerpts sim θ results with _ | ⟨a, as⟩
  · unfold deduplicateExcerpts
    simp
  · conv_lhs => unfold deduplicateExcerpts
    rw [hout] at hfil
    rw [hfil]
    rw [if_neg (by simp)]
    rw [pySortDescBy_eq_self _ _ (hout ▸ hsorted)]
    have hpair := deduplicateExcerpts_pairwise_aux sim θ results
    rw [hout] at hpair
    rw [dedupExcerptsGreedy_id sim θ (a :: as) []
      (fun r _ u hu => absurd hu (List.not_mem_nil u)) hpair]
    rfl

theorem splitOnNN_ne_nil : ∀ l : Str, splitOnNN l ≠ [] := by
  intro l
  induction l using splitOnNN.induct with
  | case1 => simp [splitOnNN]
  | case2 c => simp [splitOnNN]
  | case3 c1 c2 rest h ih =>
      rw [splitOnNN, if_pos h]
      simp
  | case4 c1 c2 rest h ih ihne =>
      exact absurd ih ihne
  | case5 c1 c2 rest h p ps heq ihne =>
      rw [splitOnNN, if_neg h, heq]
      simp

theorem joinNN_splitOnNN : ∀ l : Str, joinNN (splitOnNN l) = l := by
  intro l
  induction l using splitOnNN.induct with
  | case1 => rfl
  | case2 c => rfl
  | case3 c1 c2 rest h ih =>
      rw [splitOnNN, if_pos h]
      rcases hs : splitOnNN rest with _ | ⟨q, qs⟩
      · exact absurd hs (splitOnNN_ne_nil rest)
      · rw [joinNN, ← hs, ih, h.1, h.2]
        rfl
  | case4 c1 c2 rest h ih ihne =>
      exact absurd ih (splitOnNN_ne_nil _)
  | case5 c1 c2 rest h p ps heq ih =>
      rw [splitOnNN, if_neg h, heq]
      rw [heq] at ih
      cases ps with
      | nil => rw [joinNN]; rw [joinNN] at ih; rw [ih]
      | cons q qs =>
          rw [joinNN] at ih ⊢
          rw [List.cons_append, ih]

theorem joinNN_length : ∀ ps : List Str, ps ≠ [] →
    (joinNN ps).length = (ps.map List.length).sum + 2 * (ps.length - 1) := by
  intro ps
  induction ps with
  | nil => intro h; exact absurd rfl h
  | cons p ps ih =>
      intro _
      cases ps with
      | nil => simp [joinNN]
      | cons q qs =>
          rw [joinNN, List.length_append]
          rw [show ('\n' :: '\n' :: joinNN (q :: qs)).length =
            (joinNN (q :: qs)).length + 2 from by simp]
          rw [ih (by simp)]
          simp [List.sum_cons]
          omega

theorem sum_map_add_one {α : Type} (g : α → ℕ) :
    ∀ ps : List α, (ps.map (fun p => g p + 1)).sum = (ps.map g).sum + ps.length := by
  intro ps
  induction ps with
  | nil => rfl
  | cons p ps ih => simp [ih]; omega

theorem pyStrip_length_le (l : Str) : (pyStrip l).length ≤ l.length := by
  unfold pyStrip pyRstrip pyLstrip
  calc ((l.dropWhile isWs).reverse.dropWhile isWs).reverse.length
      = ((l.dropWhile isWs).reverse.dropWhile isWs).length := List.length_reverse _
    _ ≤ (l.dropWhile isWs).reverse.length :=
        (List.dropWhile_sublist _).length_le
    _ = (l.dropWhile isWs).length := List.length_reverse _
    _ ≤ l.length := (List.dropWhile_sublist _).length_le

theorem createChunksGo_count :
    ∀ (ps : List Str) (cc : Str) (cs pos : ℕ),
      cc.length + ((ps.map (fun p => (pyStrip p).length + 1)).sum) ≤ 500 →
      (createChunksGo 500 100 ps cc cs pos []).length =
        if cc = [] ∧ ∀ p ∈ ps, pyStrip p = [] then 0 else 1 := by
  intro ps
  induction ps with
  | nil =>
      intro cc cs pos _
      cases cc with
      | nil => simp [createChunksGo]
      | cons a as => simp [createChunksGo]
  | cons para ps ih =>
      intro cc cs pos hbud
      have hsum : ((para :: ps).map (fun p => (pyStrip p).length + 1)).sum =
          ((pyStrip para).length + 1) +
            ((ps.map (fun p => (pyStrip p).length + 1)).sum) := by
        simp
      rw [createChunksGo]
      dsimp only
      by_cases hp : (pyStrip para).isEmpty
      · rw [if_pos hp]
        have hp' : pyStrip para = [] := by simpa using hp
        rw [ih cc cs (pos + 2) (by rw [hsum] at hbud; omega)]
        by_cases hC : cc = [] ∧ ∀ p ∈ ps, pyStrip p = []
        · have hall : ∀ p ∈ para :: ps, pyStrip p = [] := by
            intro p hpmem
            rcases List.mem_cons.mp hpmem with rfl | hm
            · exact hp'
            · exact hC.2 p hm
          rw [if_pos hC, if_pos ⟨hC.1, hall⟩]
        · have hneg : ¬ (cc = [] ∧ ∀ p ∈ para :: ps, pyStrip p = []) := by
            intro hcon
            exact hC ⟨hcon.1, fun p hm => hcon.2 p (List.mem_cons_of_mem _ hm)⟩
          rw [if_neg hC, if_neg hneg]
      · rw [if_neg hp]
        have hp' : pyStrip para ≠ [] := by simpa using hp
        have hnoemit : ¬ (500 < cc.length + (pyStrip para).length ∧ ¬ cc.isEmpty = true) := by
          intro hcon
          rw [hsum] at hbud
          omega
        rw [if_neg hnoemit]
        have hbud' : (if cc.isEmpty then pyStrip para
            else cc ++ ' ' :: pyStrip para).length +
            ((ps.map (fun p => (pyStrip p).length + 1)).sum) ≤ 500 := by
          have hs1 := hsum
          by_cases hcc : cc.isEmpty
          · rw [if_pos hcc]
            have hc0 : cc = [] := by simpa using hcc
            subst hc0
            simp only [List.length_nil] at hbud ⊢
            omega
          · rw [if_neg hcc]
            simp only [List.length_append, List.length_cons]
            omega
        rw [ih _ _ (pos + (pyStrip para).length + 2) hbud']
        have hcc' : ¬ ((if cc.isEmpty then pyStrip para else cc ++ ' ' :: pyStrip para) = [] ∧
            ∀ p ∈ ps, pyStrip p = []) := by
          intro hcon
          rcases hcon with ⟨hnil, _⟩
          by_cases hcc : cc.isEmpty
          · rw [if_pos hcc] at hnil
            exact hp' hnil
          · rw [if_neg hcc] at hnil
            simp at hnil
        have hneg2 : ¬ (cc = [] ∧ ∀ p ∈ para :: ps, pyStrip p = []) := by
          intro hcon
          exact hp' (hcon.2 para (List.mem_cons_self _ _))
        rw [if_neg hcc', if_neg hneg2]

theorem findKwStep_nil_text (wordTok : Str → List Str) (lemmWord : Str → Str)
    (regexFind : List Str → Str → List (ℕ × ℕ))
    (hwt : wordTok [] = []) (hrf : ∀ pws, regexFind pws [] = [])
    (acc : List (ℕ × ℕ × Str)) (pat : List Str × List Str) :
    findKwStep wordTok lemmWord regexFind [] acc pat = acc := by
  unfold findKwStep
  rcases pat with ⟨pws, originals⟩
  match pws with
  | [pattern] =>
      dsimp only
      rw [hwt]
      rfl
  | [] => dsimp only; rw [hrf]; simp
  | p1 :: p2 :: rest => dsimp only; rw [hrf]; simp

theorem findKeywordPositions_nil_text (wordTok : Str → List Str)
    (lemmWord : Str → Str) (regexFind : List Str → Str → List (ℕ × ℕ))
    (hwt : wordTok [] = []) (hrf : ∀ pws, regexFind pws [] = [])
    (pats : List (List Str × List Str)) :
    findKeywordPositions wordTok lemmWord regexFind pats [] = [] := by
  unfold findKeywordPositions
  suffices h : ∀ acc, pats.foldl
      (findKwStep wordTok lemmWord regexFind (pyLower [])) acc = acc from h []
  induction pats with
  | nil => intro acc; rfl
  | cons pat pats ih =>
      intro acc
      rw [List.foldl_cons,
        show pyLower [] = [] from rfl,
        findKwStep_nil_text wordTok lemmWord regexFind hwt hrf acc pat]
      exact ih acc

/-- C7 (amended).  Degenerate inputs yield empty results without error:
an empty keyword table makes `KeywordSearcher.search` return `[]` on every
document; a non-empty table on the empty document also yields `[]` (the
tokeniser and the multi-word regex produce no matches on `""`);
`SemanticSearcher` produces zero chunks and zero spans for the empty
document; and every document shorter than the 500-character chunk size
*that has at least one paragraph with non-whitespace content* yields
exactly one chunk (a whitespace-only short document yields zero — see the
counterexample). -/
theorem degenerate_inputs_empty_results :
    (∀ (wordTok : Str → List Str) (lemmWord : Str → Str)
        (regexFind : List Str → Str → List (ℕ × ℕ)) (sentTok : Str → List Str)
        (text section_name : Str) (page_number : ℕ),
        kwSearch wordTok lemmWord regexFind sentTok
          (mkKeywordSearcher lemmWord []) text section_name page_number = []) ∧
    (∀ (wordTok : Str → List Str) (lemmWord : Str → Str)
        (regexFind : List Str → Str → List (ℕ × ℕ)) (sentTok : Str → List Str)
        (S : KeywordSearcher) (section_name : Str) (page_number : ℕ),
        wordTok [] = [] → (∀ pws, regexFind pws [] = []) →
        kwSearch wordTok lemmWord regexFind sentTok S [] section_name
          page_number = []) ∧
    (createChunks [] = [] ∧
      ∀ rest : List (Str × ℕ × ℕ) → List SemanticMatch,
        semSearchGuard rest [] = []) ∧
    (∀ text : Str, text ≠ [] → text.length < 500 →
        (∃ p ∈ splitOnNN text, pyStrip p ≠ []) →
        (createChunks text).length = 1) := by
  refine ⟨fun _ _ _ _ _ _ _ => rfl, ?_, ⟨rfl, fun _ => rfl⟩, ?_⟩
  · intro wordTok lemmWord regexFind sentTok S section_name page_number hwt hrf
    unfold kwSearch
    rw [findKeywordPositions_nil_text wordTok lemmWord regexFind hwt hrf]
    rfl
  · intro text hne hlen hex
    have hk := splitOnNN_ne_nil text
    have hlen2 := joinNN_length (splitOnNN text) hk
    rw [joinNN_splitOnNN] at hlen2
    have hstrip : ((splitOnNN text).map (fun p => (pyStrip p).length)).sum ≤
        ((splitOnNN text).map List.length).sum :=
      List.sum_le_sum (fun p _ => pyStrip_length_le p)
    have hsm := sum_map_add_one (fun p : Str => (pyStrip p).length) (splitOnNN text)
    have hkpos : 1 ≤ (splitOnNN text).length :=
      List.length_pos.mpr hk
    have hbud : ([] : Str).length +
        ((splitOnNN text).map (fun p => (pyStrip p).length + 1)).sum ≤ 500 := by
      simp only [List.length_nil, Nat.zero_add]
      omega
    unfold createChunks
    rw [createChunksGo_count (splitOnNN text) [] 0 0 hbud]
    rcases hex with ⟨p0, hp0mem, hp0⟩
    rw [if_neg (fun hcon => hp0 (hcon.2 p0 hp0mem))]

/-- C7 counterexample: the whitespace-only document `" "` is non-empty and
shorter than the chunk size, yet `_create_chunks` yields zero chunks, not
exactly one. -/
theorem whitespace_doc_zero_chunks_cex :
    createChunks [' '] = [] ∧ ([' '] : Str) ≠ [] ∧ ([' '] : Str).length < 500 :=
  ⟨rfl, by decide, by decide⟩

/-- C7 witness: the non-degenerate facts instantiated — a one-keyword
searcher on the empty document returns no matches, and the three-character
document `"aaa"` yields exactly one chunk. -/
theorem degenerate_inputs_empty_results_witness :
    kwSearch pySplitWs (fun w => w) (fun _ _ => []) (fun _ => [])
        (mkKeywordSearcher (fun w => w) [['q']]) [] [] 0 = [] ∧
      (createChunks ['a', 'a', 'a']).length = 1 :=
  ⟨degenerate_inputs_empty_results.2.1 pySplitWs (fun w => w) (fun _ _ => [])
      (fun _ => []) (mkKeywordSearcher (fun w => w) [['q']]) [] 0 rfl
      (fun _ => rfl),
    degenerate_inputs_empty_results.2.2.2 ['a', 'a', 'a'] (by decide)
      (by decide) (by decide)⟩

theorem mergeTwo_char_start (last cur : KeywordMatch) :
    (mergeTwo last cur).char_start = last.char_start := rfl

theorem kwMergeGoSnap_fst :
    ∀ (rest : List KeywordMatch) (last : KeywordMatch) (snap : ℕ),
      (kwMergeGoSnap last snap rest).map Prod.fst = kwMergeGo last rest := by
  intro rest
  induction rest with
  | nil => intro last snap; rfl
  | cons cur rest ih =>
      intro last snap
      rw [kwMergeGoSnap, kwMergeGo]
      by_cases hc : mergeCond last cur
      · rw [if_pos hc, if_pos hc]
        exact ih _ _
      · rw [if_neg hc, if_neg hc, List.map_cons, ih]

theorem kwMergeGoSnap_head :
    ∀ (rest : List KeywordMatch) (last : KeywordMatch) (snap : ℕ),
      ∃ X rest', kwMergeGoSnap last snap rest = (X, snap) :: rest' ∧
        X.char_start = last.char_start := by
  intro rest
  induction rest with
  | nil => intro last snap; exact ⟨last, [], rfl, rfl⟩
  | cons cur rest ih =>
      intro last snap
      by_cases hc : mergeCond last cur
      · rcases ih (mergeTwo last cur) snap with ⟨X, r', heq, hst⟩
        refine ⟨X, r', ?_, ?_⟩
        · rw [kwMergeGoSnap, if_pos hc]
          exact heq
        · rw [hst, mergeTwo_char_start]
      · exact ⟨last, kwMergeGoSnap cur cur.char_end rest,
          by rw [kwMergeGoSnap, if_neg hc], rfl⟩

theorem kwMergeGoSnap_chain :
    ∀ (rest : List KeywordMatch) (last : KeywordMatch) (snap : ℕ),
      List.Chain' (fun a b : KeywordMatch × ℕ =>
        ¬ mergeCondAt a.1.char_start a.1.char_end b.1.char_start b.2)
        (kwMergeGoSnap last snap rest) := by
  intro rest
  induction rest with
  | nil => intro last snap; exact List.chain'_singleton _
  | cons cur rest ih =>
      intro last snap
      rw [kwMergeGoSnap]
      by_cases hc : mergeCond last cur
      · rw [if_pos hc]
        exact ih _ _
      · rw [if_neg hc]
        rcases kwMergeGoSnap_head rest cur cur.char_end with ⟨X, rest', heq, hst⟩
        rw [heq]
        refine List.chain'_cons.mpr ⟨?_, by rw [← heq]; exact ih _ _⟩
        dsimp only
        rw [hst]
        exact hc

/-- C4 (amended).  For the keyword matcher: along `_merge_overlapping`'s
output, each span — *as it was when appended* (the ghost `snap` records its
`char_end` at that moment; later merges only widen it) — fails the merge
test against the final form of its predecessor, i.e. the append-time
overlap ratio over the earlier span is at most `0.5`.  The bound is not
strict, and it does not survive to the final spans: merges into the later
span can push the final adjacent overlap ratio to `0.5` and beyond (see the
counterexample).  No such bound holds at all for the semantic matcher's
chunk spans. -/
theorem mergeOverlapping_no_merge_at_append :
    ∀ ms : List KeywordMatch,
      (mergeOverlappingSnap ms).map Prod.fst = mergeOverlapping ms ∧
      List.Chain' (fun a b : KeywordMatch × ℕ =>
        ¬ mergeCondAt a.1.char_start a.1.char_end b.1.char_start b.2)
        (mergeOverlappingSnap ms) := by
  intro ms
  unfold mergeOverlapping mergeOverlappingSnap
  by_cases hemp : ms.isEmpty
  · rw [if_pos hemp, if_pos hemp]
    exact ⟨rfl, List.chain'_nil⟩
  · rw [if_neg hemp, if_neg hemp]
    rcases hsort : pySortAscBy (fun m => m.char_start) ms with _ | ⟨m, rest⟩
    · rw [hsort]
      exact ⟨rfl, List.chain'_nil⟩
    · rw [hsort]
      exact ⟨kwMergeGoSnap_fst rest m m.char_end,
        kwMergeGoSnap_chain rest m m.char_end⟩

/-- C4 counterexample: spans `[0,100)`, `[40,50)`, `[41,300)`.  The third
merges into the second (ratio `9/10` over `[40,50)`), widening it to
`[40,300)`; the final output's adjacent pair `[0,100)`, `[40,300)` then
overlaps with ratio `3/5` over the earlier span — not strictly below `0.5`,
and in fact above it. -/
theorem merged_adjacent_overlap_ratio_cex :
    mergeOverlapping
        [{ chunk_id := "keyword_0000".toList, text := "t".toList,
           matched_keywords := [], char_start := 0, char_end := 100 },
         { chunk_id := "keyword_0001".toList, text := "t".toList,
           matched_keywords := [], char_start := 40, char_end := 50 },
         { chunk_id := "keyword_0002".toList, text := "t".toList,
           matched_keywords := [], char_start := 41, char_end := 300 }] =
      [{ chunk_id := "keyword_0000".toList, text := "t".toList,
         matched_keywords := [], char_start := 0, char_end := 100 },
       { chunk_id := "keyword_0001".toList, text := "t".toList,
         matched_keywords := [], char_start := 40, char_end := 300 }] ∧
      ((min (100 : ℚ) 300) - (max (0 : ℚ) 40)) / ((100 : ℚ) - 0) = 3/5 ∧
      ¬ ((3 : ℚ)/5 < 1/2) := by
  refine ⟨?_, by norm_num, by norm_num⟩
  norm_num [mergeOverlapping, kwMergeGo, mergeTwo, mergeCond, mergeCondAt,
    pySortAscBy, pyInsertAsc, pyListSet]
  decide

theorem pyRstrip_sub (m : Str) :
    pyRstrip m ++ (m.reverse.takeWhile isWs).reverse = m := by
  unfold pyRstrip
  rw [← List.reverse_append, List.takeWhile_append_dropWhile, List.reverse_reverse]

theorem pyStrip_decomp (l : Str) :
    l.takeWhile isWs ++
      (pyStrip l ++ ((pyLstrip l).reverse.takeWhile isWs).reverse) = l := by
  have h1 : pyStrip l ++ ((pyLstrip l).reverse.takeWhile isWs).reverse =
      pyLstrip l := pyRstrip_sub (pyLstrip l)
  rw [h1]
  exact List.takeWhile_append_dropWhile isWs l

theorem pyStrip_sub (l : Str) : pyStrip l <:+: l :=
  ⟨l.takeWhile isWs, ((pyLstrip l).reverse.takeWhile isWs).reverse,
    by rw [List.append_assoc]; exact pyStrip_decomp l⟩

theorem pyStrip_all_ws {l : Str} (h : pyStrip l = []) :
    ∀ c ∈ l, isWs c = true := by
  intro c hc
  have hd := pyStrip_decomp l
  rw [h, List.nil_append] at hd
  rw [← hd] at hc
  rcases List.mem_append.mp hc with hm | hm
  · exact List.mem_takeWhile_imp hm
  · exact List.mem_takeWhile_imp (List.mem_reverse.mp hm)

theorem pyStrip_ne_nil {l : Str} {c : Char} (hc : c ∈ l)
    (hw : isWs c = false) : pyStrip l ≠ [] := by
  intro h
  rw [pyStrip_all_ws h c hc] at hw
  exact Bool.noConfusion hw

theorem expandLoop_spec (n : ℕ) : ∀ (s e : ℕ),
    (expandLoop n s e).1 ≤ s ∧ e ≤ (expandLoop n s e).2 ∧
      (expandLoop n s e).2 ≤ max e n := by
  intro s e
  induction s, e using expandLoop.induct n with
  | case1 s e h ih =>
      rw [expandLoop, dif_pos h]
      rcases ih with ⟨ih1, ih2, ih3⟩
      refine ⟨le_trans ih1 ?_, le_trans ?_ ih2, le_trans ih3 ?_⟩
      · split <;> omega
      · split <;> omega
      · have h1 : (if e < n then min n (e + 100) else e) ≤ max e n := by
          split <;> omega
        have h2 : max (if e < n then min n (e + 100) else e) n ≤ max e n := by
          split <;> omega
        exact h2
  | case2 s e h =>
      rw [expandLoop, dif_neg h]
      exact ⟨le_refl s, le_refl e, le_max_left e n⟩

theorem get?_eq_some_getD {l : Str} {i : ℕ} (h : i < l.length) (d : Char) :
    l.get? i = some (l.getD i d) := by
  rw [List.get?_eq_get h, List.getD_eq_get _ _ h]

theorem getD_mem (l : Str) (i : ℕ) (h : i < l.length) (d : Char) :
    l.getD i d ∈ l := by
  rw [List.getD_eq_get _ _ h]
  exact List.get_mem l i h

theorem pySlice_get? (text : Str) (a b i : ℕ) (ha : a ≤ i) (hb : i < b) :
    (pySlice text a b).get? (i - a) = text.get? i := by
  unfold pySlice
  rw [List.get?_take (by omega : i - a < b - a), List.get?_drop]
  congr 1
  omega

theorem mem_pySlice (text : Str) (a b i : ℕ) (ha : a ≤ i) (hb : i < b)
    (hlen : i < text.length) : text.getD i ' ' ∈ pySlice text a b := by
  have h1 := pySlice_get? text a b i ha hb
  rw [get?_eq_some_getD hlen ' '] at h1
  exact List.get?_mem h1

theorem pySlice_sub (text : Str) (a b : ℕ) : pySlice text a b <:+: text :=
  ⟨text.take a, (text.drop a).drop (b - a), by
    rw [List.append_assoc]
    unfold pySlice
    rw [List.take_append_drop, List.take_append_drop]⟩

theorem expandContext_spec (text : Str) (s0 e0 ms : ℕ)
    (hs : s0 ≤ ms) (he : ms < e0) (hel : e0 ≤ text.length)
    (hms : ms < text.length) (hchar : isWs (text.getD ms ' ') = false) :
    spanOk text (expandContext text s0 e0) := by
  obtain ⟨h1, h2, h3⟩ := expandLoop_spec text.length s0 e0
  have hmax : max e0 text.length = text.length := max_eq_right hel
  rw [hmax] at h3
  have hin1 : (expandLoop text.length s0 e0).1 ≤ ms := le_trans h1 hs
  have hin2 : ms < (expandLoop text.length s0 e0).2 := lt_of_lt_of_le he h2
  have hmem : text.getD ms ' ' ∈
      pySlice text (expandLoop text.length s0 e0).1
        (expandLoop text.length s0 e0).2 :=
    mem_pySlice text _ _ ms hin1 hin2 hms
  have hne := pyStrip_ne_nil hmem hchar
  have hlen : (pyStrip (pySlice text (expandLoop text.length s0 e0).1
      (expandLoop text.length s0 e0).2)).length ≤
      (expandLoop text.length s0 e0).2 - (expandLoop text.length s0 e0).1 := by
    refine le_trans (pyStrip_length_le _) ?_
    unfold pySlice
    exact List.length_take_le _ _
  have hpos := List.length_pos.mpr hne
  unfold expandContext spanOk
  dsimp only
  refine ⟨by omega, by omega, ?_⟩
  exact (pyStrip_sub _).trans (pySlice_sub text _ _)

theorem extractInner_spec (sentTok : Str → List Str) (text para : Str)
    (ms pos : ℕ) (hparaend : pos + para.length ≤ text.length)
    (hpos : pos ≤ ms) (hlt : ms < pos + para.length) (hms : ms < text.length)
    (hchar : isWs (text.getD ms ' ') = false) (hinf : para <:+: text)
    (hbound : (pyStrip para).length ≤ 1000) :
    spanOk text
      (if 200 ≤ (pyStrip para).length ∧ (pyStrip para).length ≤ 1000
        then (pyStrip para, pos, pos + para.length)
        else if (pyStrip para).length < 200
        then expandContext text pos (pos + para.length)
        else extractBySentences sentTok text ms) := by
  by_cases c1 : 200 ≤ (pyStrip para).length ∧ (pyStrip para).length ≤ 1000
  · rw [if_pos c1]
    unfold spanOk
    dsimp only
    exact ⟨by omega, hparaend, (pyStrip_sub para).trans hinf⟩
  · rw [if_neg c1]
    by_cases c2 : (pyStrip para).length < 200
    · rw [if_pos c2]
      exact expandContext_spec text pos (pos + para.length) ms hpos hlt hparaend
        hms hchar
    · exact absurd hbound (by omega)

theorem sep_char_at (pre para J : Str) (k : ℕ) (hk : k < 2) :
    ((pre ++ (para ++ '\n' :: '\n' :: J)).getD
      (pre.length + para.length + k) ' ') = '\n' := by
  rw [List.getD_append_right _ _ _ _ (by omega)]
  rw [List.getD_append_right _ _ _ _ (by omega)]
  interval_cases k
  · rw [show pre.length + para.length + 0 - pre.length - para.length = 0 from by omega]
    rfl
  · rw [show pre.length + para.length + 1 - pre.length - para.length = 1 from by omega]
    rfl

theorem extractGo_spec (sentTok : Str → List Str) (text : Str) (ms : ℕ)
    (hms : ms < text.length) (hchar : isWs (text.getD ms ' ') = false) :
    ∀ (ps : List Str) (pre : Str),
      text = pre ++ joinNN ps → ps ≠ [] → pre.length ≤ ms →
      (∀ p ∈ ps, (pyStrip p).length ≤ 1000) →
      spanOk text (extractGo sentTok text ms ps pre.length) := by
  intro ps
  induction ps with
  | nil => intro pre _ hne _ _; exact absurd rfl hne
  | cons para rest ih =>
      intro pre hdec hne hpos hpara
      cases rest with
      | nil =>
          rw [joinNN] at hdec
          have hparaend : pre.length + para.length = text.length := by
            rw [hdec, List.length_append]
          rw [extractGo]
          rw [if_pos (⟨hpos, by omega⟩ :
            pre.length ≤ ms ∧ ms ≤ pre.length + para.length)]
          exact extractInner_spec sentTok text para ms pre.length (by omega)
            hpos (by omega) hms hchar
            ⟨pre, [], by rw [List.append_nil]; exact hdec.symm⟩
            (hpara para (List.mem_cons_self _ _))
      | cons q qs =>
          rw [joinNN] at hdec
          have hlen2 : pre.length + para.length + 2 ≤ text.length := by
            rw [hdec]
            simp only [List.length_append, List.length_cons]
            omega
          rw [extractGo]
          by_cases hfire : pre.length ≤ ms ∧ ms ≤ pre.length + para.length
          · rw [if_pos hfire]
            have hneq : ms ≠ pre.length + para.length := by
              intro heq
              have hsep := sep_char_at pre para (joinNN (q :: qs)) 0 (by omega)
              rw [← hdec] at hsep
              rw [show pre.length + para.length + 0 = ms from by omega] at hsep
              rw [hsep] at hchar
              exact Bool.noConfusion hchar
            have hlt : ms < pre.length + para.length :=
              lt_of_le_of_ne hfire.2 hneq
            refine extractInner_spec sentTok text para ms pre.length (by omega)
              hfire.1 hlt hms hchar ?_ (hpara para (List.mem_cons_self _ _))
            exact ⟨pre, '\n' :: '\n' :: joinNN (q :: qs), by
              rw [List.append_assoc]
              exact hdec.symm⟩
          · rw [if_neg hfire]
            have hgt : pre.length + para.length < ms := by
              rcases Nat.lt_or_ge (pre.length + para.length) ms with h | h
              · exact h
              · exact absurd ⟨hpos, h⟩ hfire
            have hneq1 : ms ≠ pre.length + para.length + 1 := by
              intro heq
              have hsep := sep_char_at pre para (joinNN (q :: qs)) 1 (by omega)
              rw [← hdec] at hsep
              rw [show pre.length + para.length + 1 = ms from heq.symm] at hsep
              rw [hsep] at hchar
              exact Bool.noConfusion hchar
            have hdec' : text = (pre ++ para ++ ['\n', '\n']) ++ joinNN (q :: qs) := by
              rw [hdec]
              simp
            have hres := ih (pre ++ para ++ ['\n', '\n']) hdec' (by simp)
              (by simp only [List.length_append, List.length_cons,
                List.length_nil]; omega)
              (fun p hp => hpara p (List.mem_cons_of_mem _ hp))
            rw [show (pre ++ para ++ ['\n', '\n']).length =
              pre.length + para.length + 2 from by
                simp only [List.length_append, List.length_cons,
                  List.length_nil]] at hres
            exact hres

/-- C1 (amended).  For keyword-matcher spans produced through the
paragraph-based branches of `_extract_context` (every paragraph's stripped
length at most 1000, so the sentence-based branch is never taken, and the
match position holding a non-whitespace character, as keyword occurrences
do): `0 ≤ char_start < char_end ≤ len(document)` and the span's text occurs
contiguously in the document — but it is the *stripped* content of a
window, not necessarily `document[char_start:char_end]` itself (see the
counterexample).  No such guarantee is claimed for the sentence-based
branch or for the semantic matcher's chunk spans, whose offsets are
approximate. -/
theorem extractContext_paragraph_spans (sentTok : Str → List Str)
    (text : Str) (ms me : ℕ) (hms : ms < text.length)
    (hchar : isWs (text.getD ms ' ') = false)
    (hpara : ∀ p ∈ splitOnNN text, (pyStrip p).length ≤ 1000) :
    spanOk text (extractContext sentTok text ms me) := by
  unfold extractContext
  have h0 : text = ([] : Str) ++ joinNN (splitOnNN text) := by
    rw [List.nil_append, joinNN_splitOnNN]
  exact extractGo_spec sentTok text ms hms hchar (splitOnNN text) [] h0
    (splitOnNN_ne_nil text) (by simp) hpara

/-- C1 witness: the paragraph-branch guarantees instantiated on the
300-character document `"aaa…a"` with the match at position 0. -/
theorem extractContext_paragraph_spans_witness :
    spanOk (List.replicate 300 'a')
      (extractContext (fun _ => []) (List.replicate 300 'a') 0 3) :=
  extractContext_paragraph_spans (fun _ => []) (List.replicate 300 'a') 0 3
    (by decide) (by decide) (by decide)

/-- C1 counterexample: an end-to-end `KeywordSearcher.search` run (keyword
`"qqq"`, with `word_tokenize` behaving as whitespace-splitting and the
lemmatiser as the identity on this document's tokens, as NLTK does here)
produces the single span `(strip(doc), 0, 249)` whose text is the document
*minus its leading space* while `document[0:249]` is the whole document:
`text == document[char_start:char_end]` fails. -/
theorem span_text_not_slice_cex :
    (kwSearch pySplitWs (fun w => w) (fun _ _ => []) (fun _ => [])
        (mkKeywordSearcher (fun w => w) ["qqq".toList]) cexDoc [] 0).map
        (fun m => (m.text, m.char_start, m.char_end)) =
      [(pyStrip cexDoc, 0, 249)] ∧
    pySlice cexDoc 0 249 = cexDoc ∧
    pyStrip cexDoc ≠ cexDoc := by
  refine ⟨by decide, by decide, by decide⟩

end RIPilot
